import Mathlib

/-!
# mob: output filtering, tool arguments, instrumentation and line splitting

A shallow embedding of the parts of `mob` that the checked properties talk
about: the `jom` build driver (`src/tools/jom.cpp`), the `spdlog` and
`stylesheets` tasks (`src/tasks/*.cpp`) and the helpers `is_set`,
`instrumentable` and `for_each_line` of `src/utility.h`.

Strings are Lean strings, `fs::path` values are strings in generic format,
enum bit sets are natural numbers, and everything a task does to the outside
world is recorded in an explicit `World`.
-/

set_option autoImplicit false

namespace mob

/-! ## Strings -/

/-- Scan of `std::string::find`: the first position at or after `i` where
`pat` starts, `none` standing for `npos`. -/
def find_from (pat : List Char) : List Char → Nat → Option Nat
  | [], i => if pat = [] then some i else none
  | c :: cs, i =>
    if pat.isPrefixOf (c :: cs) then some i else find_from pat cs (i + 1)

/-- The call `s.find(pat)` of `std::string`; `none` is `std::string::npos`. -/
def string_find (s pat : String) : Option Nat :=
  find_from pat.data s.data 0

/-! ## Enum bit sets (`utility.h`) -/

/-- The template `is_set(e, v)`: `(e & v) == v`. -/
def is_set (e v : Nat) : Bool :=
  (e &&& v) == v

/-- The template `is_any_set(e, v)`: `(e & v) != E(0)`. Also the truth value of
`e & v` used as a condition. -/
def is_any_set (e v : Nat) : Bool :=
  (e &&& v) != 0

/-! ## Paths -/

/-- The separator a path gets in front of an appended relative name. -/
def path_prefix (p : String) : String :=
  if p = "" then ""
  else if p.back = '/' then p
  else p ++ "/"

/-- The operator `p / rhs` of `fs::path` for a relative right operand, which is
the only kind the tasks below append (every right operand starts with a fixed
name or is `*`): the operand is put after `p`, with one separator between them
unless `p` is empty or already ends in one. -/
def path_append (p rhs : String) : String :=
  path_prefix p ++ rhs

/-! ## Log levels and the process builder -/

/-- Modelled from the spec: the severities of `context::level` that the logging
sink receives (`context.h` is not part of the sources at hand). -/
inductive level where
  | trace
  | info
  | warning
  | error
deriving DecidableEq, Repr

/-- The record `process::filter` handed to an output filter: the text of the
line and the severity it will be logged at, which the filter may change. -/
structure filter where
  line : String
  lv : level
deriving DecidableEq, Repr

/-- Modelled from the spec: the display-verbosity tag of an argument
(`process::log_quiet`, `process::log_dump`, or none). -/
inductive arg_flags where
  | noflags
  | log_quiet
  | log_dump
deriving DecidableEq, Repr

/-- The enum `arch` of `utility.h`. -/
inductive arch where
  | x86
  | x64
  | dont_care
deriving DecidableEq, Repr

/-- The enumerator `arch::def = x64`. -/
def arch.def_ : arch := arch.x64

/-- The environment overlay of a process: none, or the Visual Studio
environment `env::vs(a)` of an architecture. -/
inductive env where
  | empty
  | vs (a : arch)
deriving DecidableEq, Repr

/-- Modelled from the spec: a tool invocation (the class `process`, whose
definition is not part of the sources at hand): executable path, ordered
argument list with each argument's display-verbosity tag, working directory,
environment overlay, flags, and the severity and filter of the standard error
stream. Each builder method below stores its argument. -/
structure process where
  binary_ : String
  cwd_ : String
  args_ : List (String × arg_flags)
  flags_ : Nat
  env_ : env
  stderr_level_ : level
  stderr_filter_ : filter → filter

/-- Builder `process::binary`. -/
def process.binary (p : process) (b : String) : process :=
  { p with binary_ := b }

/-- Builder `process::cwd`. -/
def process.cwd (p : process) (d : String) : process :=
  { p with cwd_ := d }

/-- Builder `process::arg(s, f)`: one more argument at the end of the list. -/
def process.arg (p : process) (s : String)
    (f : arg_flags := arg_flags.noflags) : process :=
  { p with args_ := p.args_ ++ [(s, f)] }

/-- Builder `process::arg(name, value)`: a name and its value, in that order,
at the end of the list. -/
def process.arg2 (p : process) (name value : String) : process :=
  { p with args_ := p.args_ ++ [(name, arg_flags.noflags), (value, arg_flags.noflags)] }

/-- Builder `process::flags`. -/
def process.flags (p : process) (f : Nat) : process :=
  { p with flags_ := f }

/-- Builder `process::env`. -/
def process.env (p : process) (e : env) : process :=
  { p with env_ := e }

/-- Builder `process::stderr_level`: the severity lines of standard error are
given before the filter sees them. -/
def process.stderr_level (p : process) (lv : level) : process :=
  { p with stderr_level_ := lv }

/-- Builder `process::stderr_filter`. -/
def process.stderr_filter (p : process) (f : filter → filter) : process :=
  { p with stderr_filter_ := f }

/-- The argument strings of a process, in order, without their tags. -/
def process.arg_strings (p : process) : List String :=
  p.args_.map Prod.fst

/-- Modelled from the spec: what the process runner does with one line of
standard error: the line enters the filter at the severity configured for the
stream and is forwarded to the log as the filter leaves it. -/
def process.stderr_line (p : process) (line : String) : filter :=
  p.stderr_filter_ { line := line, lv := p.stderr_level_ }

/-! ## The jom tool (`tools/jom.cpp`) -/

/-- The enumerators the `jom` tool tests, as bit masks: `jom::single_job` and
`jom::allow_failure` of the tool's own flags, `process::terminate_on_interrupt`
and `process::allow_failure` of the process flags. Their values are declared
in headers that are not part of the sources at hand. -/
structure jom_consts where
  single_job : Nat
  allow_failure : Nat
  terminate_on_interrupt : Nat
  process_allow_failure : Nat

/-- The members of the class `jom`. -/
structure jom where
  process_ : process
  target_ : String
  flags_ : Nat
  arch_ : arch

/-- Method `jom::path`. -/
def jom.path (j : jom) (p : String) : jom :=
  { j with process_ := j.process_.cwd p }

/-- Method `jom::target`. -/
def jom.target (j : jom) (s : String) : jom :=
  { j with target_ := s }

/-- Method `jom::def`. -/
def jom.def_ (j : jom) (s : String) : jom :=
  { j with process_ := j.process_.arg s }

/-- Method `jom::flag`. -/
def jom.flag (j : jom) (f : Nat) : jom :=
  { j with flags_ := f }

/-- Method `jom::architecture`. -/
def jom.architecture (j : jom) (a : arch) : jom :=
  { j with arch_ := a }

/-- The lambda given to `stderr_filter` in `jom::do_run`. -/
def jom.banner_filter (f : filter) : filter :=
  if string_find f.line "empower your cores" ≠ none then
    { f with lv := level.trace }
  else f

/-- Method `jom::do_run`, up to the call of `execute_and_join`: the process as
it is configured when it is started. `tool` is `conf::tool_by_name("jom")`. -/
def jom.do_run (k : jom_consts) (tool : String) (j : jom) : jom :=
  let pflags := k.terminate_on_interrupt
  let (p0, pflags) :=
    if is_any_set j.flags_ k.allow_failure then
      (j.process_.stderr_level level.trace, pflags ||| k.process_allow_failure)
    else (j.process_, pflags)
  let p1 := (((((((((p0.binary tool).stderr_filter jom.banner_filter).arg
    "/C" arg_flags.log_quiet).arg
    "/S" arg_flags.log_quiet).arg
    "/L" arg_flags.log_quiet).arg
    "/D" arg_flags.log_dump).arg
    "/P" arg_flags.log_dump).arg
    "/W" arg_flags.log_dump).arg
    "/K")
  let p2 := if is_any_set j.flags_ k.single_job then p1.arg2 "/J" "1" else p1
  { j with process_ := ((p2.arg j.target_).flags pflags).env (env.vs j.arch_) }

/-- A tool configured the way callers do it: definitions `ds` in order, then
the target and the flags. -/
def jom.configure (j : jom) (ds : List String) (t : String) (f : Nat) : jom :=
  ((ds.foldl jom.def_ j).target t).flag f

/-- Modelled from the spec: a process as `basic_process_runner` creates it for
a tool, fresh for the run: nothing configured yet, lines of standard error
logged at `lv`. -/
def process.fresh (lv : level) : process :=
  { binary_ := "", cwd_ := "", args_ := [], flags_ := 0, env_ := env.empty,
    stderr_level_ := lv, stderr_filter_ := id }

/-- The constructor `jom::jom()`; the members it does not mention start
empty. -/
def jom.new (lv : level) : jom :=
  { process_ := process.fresh lv, target_ := "", flags_ := 0, arch_ := arch.def_ }

/-! ## The outside world -/

/-- An operation a task asks a tool or the file system to perform. -/
inductive op where
  | git (url branch root : String)
  | git_delete_directory (p : String)
  | download (url file : String)
  | extract (file output : String)
  | copy_glob_to_dir_if_better (glob dest : String) (copy_files copy_dirs : Bool)
deriving DecidableEq, Repr

/-- Modelled from the spec: how a tool run resolves (`Completed`, `Failed`
with an exit code, `Interrupted`). -/
inductive run_result where
  | completed
  | failed (code : Int)
  | interrupted
deriving DecidableEq, Repr

/-- What the host does with the operations it is asked for: how each one
resolves and how long it takes. -/
structure Host where
  result : op → run_result
  duration : op → Nat

/-- The state outside the program: the reading of the clock behind
`timestamp()` and the operations performed so far, oldest first. -/
structure World where
  time : Int
  log : List op
deriving DecidableEq, Repr

/-- The function `timestamp()`: time since mob started. -/
def timestamp (w : World) : Int :=
  w.time

/-- An error other than cancellation: a tool that failed with an exit code. -/
structure tool_failure where
  what : op
  code : Int
deriving DecidableEq, Repr

/-- How a piece of code ends: it returns a value, throws an error, or throws
the cancellation `bailed` with its message. -/
inductive outcome (ε α : Type) where
  | returned (v : α)
  | raised (e : ε)
  | bailed (what : String)
deriving DecidableEq, Repr

/-- Code that acts on the world and may throw. -/
def Exec (α : Type) : Type :=
  World → outcome tool_failure α × World

/-- Normal return of a value. -/
def Exec.ret {α : Type} (v : α) : Exec α :=
  fun w => (outcome.returned v, w)

/-- Sequencing: the rest runs only when the first part returns. -/
def Exec.andThen {α β : Type} (m : Exec α) (k : α → Exec β) : Exec β :=
  fun w =>
    match m w with
    | (outcome.returned v, w1) => k v w1
    | (outcome.raised e, w1) => (outcome.raised e, w1)
    | (outcome.bailed s, w1) => (outcome.bailed s, w1)

/-- A range-based `for` loop whose body may throw. -/
def Exec.forEach {α : Type} (body : α → Exec Unit) : List α → Exec Unit
  | [] => Exec.ret ()
  | a :: l => (body a).andThen (fun _ => Exec.forEach body l)

/-- Modelled from the spec: `run_tool` and the `op::` functions. The
operation is performed, which takes its time; a failure is thrown as an error
and an interruption as `bailed`. -/
def run_tool (h : Host) (o : op) : Exec Unit :=
  fun w =>
    let w1 : World := { time := w.time + h.duration o, log := w.log ++ [o] }
    match h.result o with
    | run_result.completed => (outcome.returned (), w1)
    | run_result.failed c => (outcome.raised { what := o, code := c }, w1)
    | run_result.interrupted => (outcome.bailed "", w1)

/-! ## Instrumentation (`utility.h`) -/

/-- The struct `instrumentable::time_pair`; both members start at zero. -/
structure time_pair where
  start : Int := 0
  end_ : Int := 0
deriving DecidableEq, Repr

/-- The struct `instrumentable::task`. -/
structure task where
  name : String
  tps : List time_pair
deriving DecidableEq, Repr

/-- The members of `instrumentable<N>`. -/
structure instrumentable (N : Nat) where
  name_ : String
  tasks_ : Fin N → task

/-- The constructor of `instrumentable<N>`: every task gets its name and no
time pairs. -/
def instrumentable.new {N : Nat} (name : String) (names : Fin N → String) :
    instrumentable N :=
  { name_ := name, tasks_ := fun i => { name := names i, tps := [] } }

/-- An update through the reference `tps.back()`. -/
def modify_back {α : Type} (g : α → α) : List α → List α
  | [] => []
  | [a] => [g a]
  | a :: b :: l => a :: modify_back g (b :: l)

/-- An update of the time pairs of the task `std::get<E>(tasks_)`. -/
def instrumentable.modify_tps {N : Nat} (s : instrumentable N) (E : Fin N)
    (g : List time_pair → List time_pair) : instrumentable N :=
  { s with tasks_ := fun i =>
      if i = E then { s.tasks_ i with tps := g (s.tasks_ i).tps } else s.tasks_ i }

/-- A phase body given to `instrument` that does not call `instrument` itself
(a non-nested call): it can read the instrumented tasks, acts on the world and
ends in some outcome; it does not change `tasks_`. A callable that may call
`instrument` again is a `reentrant_body`, further down. -/
def phase_body (N : Nat) (ε α : Type) : Type :=
  instrumentable N → World → outcome ε α × World

/-- The template `instrument<E>(f)`. The destructor of `timing_ender` runs
when `f` has returned or thrown, before the outcome of `f` leaves the
function. -/
def instrumentable.instrument {N : Nat} {ε α : Type} (s : instrumentable N)
    (E : Fin N) (f : phase_body N ε α) (w : World) :
    outcome ε α × instrumentable N × World :=
  -- t.tps.push_back({});
  let s1 := s.modify_tps E (fun tps => tps ++ [{ start := 0, end_ := 0 }])
  -- t.tps.back().start = timestamp();
  let s2 := s1.modify_tps E (modify_back (fun tp => { tp with start := timestamp w }))
  -- timing_ender te(t.tps.back()); return f();
  let r := f s2 w
  -- ~timing_ender(): tp.end = timestamp();
  let s3 := s2.modify_tps E (modify_back (fun tp => { tp with end_ := timestamp r.2 }))
  (r.1, s3, r.2)

/-- One call of `instrument`: what the caller does to the world before it
(waiting, other work) and the body it passes. -/
structure call (N : Nat) (ε α : Type) where
  gap : World → World
  body : phase_body N ε α

/-- A sequence of calls of `instrument<E>` on one instrumentable, one after
the other, whatever the outcome of each. -/
def instrument_all {N : Nat} {ε α : Type} (E : Fin N) :
    List (call N ε α) → instrumentable N → World → instrumentable N × World
  | [], s, w => (s, w)
  | c :: cs, s, w =>
    let r := s.instrument E c.body (c.gap w)
    instrument_all E cs r.2.1 r.2.2

/-- The clock readings around the body of each call of such a sequence, in the
order the calls are made. -/
def call_times {N : Nat} {ε α : Type} (E : Fin N) :
    List (call N ε α) → instrumentable N → World → List time_pair
  | [], _, _ => []
  | c :: cs, s, w =>
    let r := s.instrument E c.body (c.gap w)
    { start := timestamp (c.gap w), end_ := timestamp r.2.2 } ::
      call_times E cs r.2.1 r.2.2

/-- The clock never goes back while a body runs. -/
def clock_monotone {N : Nat} {ε α : Type} (f : phase_body N ε α) : Prop :=
  ∀ s w, timestamp w ≤ timestamp (f s w).2

/-! ## Tasks (`tasks/spdlog.cpp`, `tasks/stylesheets.cpp`) -/

/-- What the tasks read from the configuration and from `tasks.h`, neither of
which is part of the sources at hand: the paths, the configured versions, the
URL of a git repository, the bit of `clean::reclone`, and the positions of the
phases `times::clean`, `times::fetch` and `times::install` in the array of
instrumented tasks. -/
structure conf (N : Nat) where
  build : String
  cache : String
  install_stylesheets : String
  version_by_name : String → String
  make_git_url : String → String → String
  reclone : Nat
  times_clean : Fin N
  times_fetch : Fin N
  times_install : Fin N

/-- A phase body that does not look at the instrumented tasks. -/
def Exec.body {N : Nat} {α : Type} (m : Exec α) : phase_body N tool_failure α :=
  fun _ w => m w

/-- Method `spdlog::version`. -/
def spdlog.version {N : Nat} (c : conf N) : String :=
  c.version_by_name "spdlog"

/-- Method `spdlog::source_path`. -/
def spdlog.source_path {N : Nat} (c : conf N) : String :=
  path_append c.build ("spdlog-" ++ spdlog.version c)

/-- The lambda of `spdlog::do_clean`. -/
def spdlog.clean_body {N : Nat} (c : conf N) (h : Host) (cl : Nat) : Exec Unit :=
  if is_set cl c.reclone then
    run_tool h (op.git_delete_directory (spdlog.source_path c))
  else Exec.ret ()

/-- Method `spdlog::do_clean`. -/
def spdlog.do_clean {N : Nat} (c : conf N) (h : Host) (cl : Nat)
    (t : instrumentable N) (w : World) :
    outcome tool_failure Unit × instrumentable N × World :=
  t.instrument c.times_clean (spdlog.clean_body c h cl).body w

/-- The lambda of `spdlog::do_fetch`. -/
def spdlog.fetch_body {N : Nat} (c : conf N) (h : Host) : Exec Unit :=
  run_tool h (op.git (c.make_git_url "gabime" "spdlog") (spdlog.version c)
    (spdlog.source_path c))

/-- Method `spdlog::do_fetch`. -/
def spdlog.do_fetch {N : Nat} (c : conf N) (h : Host)
    (t : instrumentable N) (w : World) :
    outcome tool_failure Unit × instrumentable N × World :=
  t.instrument c.times_fetch (spdlog.fetch_body c h).body w

/-- The struct `stylesheets::release`, with the members the task uses, in the
order `releases()` initialises them. -/
structure release where
  repo : String
  name : String
  version : String
  file : String
deriving DecidableEq, Repr

/-- Method `stylesheets::paper_lad_6788_version`. -/
def stylesheets.paper_lad_6788_version {N : Nat} (c : conf N) : String :=
  c.version_by_name "ss_paper_lad_6788"

/-- Method `stylesheets::paper_automata_6788_version`. -/
def stylesheets.paper_automata_6788_version {N : Nat} (c : conf N) : String :=
  c.version_by_name "ss_paper_automata_6788"

/-- Method `stylesheets::paper_mono_6788_version`. -/
def stylesheets.paper_mono_6788_version {N : Nat} (c : conf N) : String :=
  c.version_by_name "ss_paper_mono_6788"

/-- Method `stylesheets::dark_mode_1809_6788_version`. -/
def stylesheets.dark_mode_1809_6788_version {N : Nat} (c : conf N) : String :=
  c.version_by_name "ss_dark_mode_1809_6788"

/-- Method `stylesheets::releases`. -/
def stylesheets.releases {N : Nat} (c : conf N) : List release :=
  [ { repo := "6788-00", name := "paper-light-and-dark",
      version := stylesheets.paper_lad_6788_version c,
      file := stylesheets.paper_lad_6788_version c },
    { repo := "6788-00", name := "paper-automata",
      version := stylesheets.paper_automata_6788_version c,
      file := "Paper-Automata" },
    { repo := "6788-00", name := "paper-mono",
      version := stylesheets.paper_mono_6788_version c,
      file := "Paper-Mono" },
    { repo := "6788-00", name := "1809-dark-mode",
      version := stylesheets.dark_mode_1809_6788_version c,
      file := stylesheets.dark_mode_1809_6788_version c } ]

/-- Method `stylesheets::release_build_path`. -/
def stylesheets.release_build_path {N : Nat} (c : conf N) (r : release) : String :=
  path_append c.build (r.name ++ "-v" ++ r.version)

/-- The URL built in `stylesheets::make_downloader_tool`. -/
def stylesheets.release_url (r : release) : String :=
  "https://github.com/" ++ r.repo ++ "/" ++ r.name ++ "/releases/" ++
    "download/v" ++ r.version ++ "/" ++ r.file ++ ".7z"

/-- The file set in `stylesheets::make_downloader_tool`. -/
def stylesheets.cache_file {N : Nat} (c : conf N) (r : release) : String :=
  path_append c.cache (r.name ++ ".7z")

/-- Method `stylesheets::make_downloader_tool`, for the default operation
`downloader::download`. -/
def stylesheets.make_downloader_tool {N : Nat} (c : conf N) (r : release) : op :=
  op.download (stylesheets.release_url r) (stylesheets.cache_file c r)

/-- Modelled from the spec: the value a downloader hands back after its run,
the path of the downloaded file. -/
def downloader_result : op → String
  | op.download _ file => file
  | _ => ""

/-- The body of the loop of `stylesheets::do_fetch`. -/
def stylesheets.fetch_one {N : Nat} (c : conf N) (h : Host) (r : release) : Exec Unit :=
  let d := stylesheets.make_downloader_tool c r
  (run_tool h d).andThen fun _ =>
    let file := downloader_result d
    run_tool h (op.extract file (stylesheets.release_build_path c r))

/-- The lambda of `stylesheets::do_fetch`. -/
def stylesheets.fetch_body {N : Nat} (c : conf N) (h : Host) : Exec Unit :=
  Exec.forEach (stylesheets.fetch_one c h) (stylesheets.releases c)

/-- Method `stylesheets::do_fetch`. -/
def stylesheets.do_fetch {N : Nat} (c : conf N) (h : Host)
    (t : instrumentable N) (w : World) :
    outcome tool_failure Unit × instrumentable N × World :=
  t.instrument c.times_fetch (stylesheets.fetch_body c h).body w

/-- The body of the loop of `stylesheets::do_build_and_install`. -/
def stylesheets.install_one {N : Nat} (c : conf N) (h : Host) (r : release) : Exec Unit :=
  let src := path_append c.build (r.name ++ "-v" ++ r.version)
  run_tool h (op.copy_glob_to_dir_if_better (path_append src "*")
    c.install_stylesheets true true)

/-- The lambda of `stylesheets::do_build_and_install`. -/
def stylesheets.install_body {N : Nat} (c : conf N) (h : Host) : Exec Unit :=
  Exec.forEach (stylesheets.install_one c h) (stylesheets.releases c)

/-- Method `stylesheets::do_build_and_install`. -/
def stylesheets.do_build_and_install {N : Nat} (c : conf N) (h : Host)
    (t : instrumentable N) (w : World) :
    outcome tool_failure Unit × instrumentable N × World :=
  t.instrument c.times_install (stylesheets.install_body c h).body w

/-! ## Line splitting (`utility.h`) -/

/-- The test `*p == '\n' || *p == '\r'`. -/
def is_break (c : Char) : Bool :=
  c == '\n' || c == '\r'

/-- Why a run of `for_each_line` would not produce its lines. -/
inductive line_error where
  | assertion_failed (exp : String)
  | out_of_fuel
deriving DecidableEq, Repr

deriving instance DecidableEq for Except

/-- The character `*p`, for a position `p` before `end`. -/
def char_at (s : List Char) (p : Nat) : Char :=
  s.getD p ' '

/-- The inner loop `while (p != end && (*p == '\n' || *p == '\r')) ++p;`. -/
def skip_breaks (s : List Char) : Nat → Nat → Option Nat
  | 0, _ => none
  | fuel + 1, p =>
    if p ≠ s.length ∧ is_break (char_at s p) then skip_breaks s fuel (p + 1)
    else some p

/-- The loop `for (;;)` of `for_each_line`. Pointers are offsets from `begin`,
so `end` is `s.length`, and a pointer is never null or before `begin`; `out` is
the list of the lines `f` has been called with so far. -/
def for_each_line_loop (s : List Char) :
    Nat → Nat → Nat → List (List Char) → Except line_error (List (List Char))
  | 0, _, _, _ => Except.error line_error.out_of_fuel
  | fuel + 1, p, start, out =>
    if ¬ p ≤ s.length then
      Except.error (line_error.assertion_failed "p && p >= begin && p <= end")
    else if ¬ start ≤ s.length then
      Except.error (line_error.assertion_failed "start && start >= begin && start <= end")
    else if p = s.length ∨ is_break (char_at s p) then
      if p ≠ start ∧ ¬ p ≥ start then
        Except.error (line_error.assertion_failed "p >= start")
      else if p ≠ start ∧ ¬ p - start ≤ s.length then
        Except.error (line_error.assertion_failed "n <= s.size()")
      else
        let out1 := if p ≠ start then out ++ [(s.drop start).take (p - start)] else out
        match skip_breaks s (s.length + 1) p with
        | none => Except.error line_error.out_of_fuel
        | some p1 =>
          if ¬ p1 ≤ s.length then
            Except.error (line_error.assertion_failed "p && p >= begin && p <= end")
          else if p1 = s.length then Except.ok out1
          else for_each_line_loop s fuel p1 p1 out1
    else for_each_line_loop s fuel (p + 1) start out

/-- The function `for_each_line(s, f)`: the lines `f` is called with, in the
order of the calls. -/
def for_each_line (s : String) : Except line_error (List String) :=
  if s.data = [] then Except.ok []
  else (for_each_line_loop s.data (s.length + 1) 0 0 []).map (List.map String.mk)

/-- The lines of a text: its maximal non-empty runs of characters that are not
line breaks, from left to right. -/
def line_runs (s : List Char) : List (List Char) :=
  (s.splitOnP is_break).filter (fun l => !l.isEmpty)

/-! ## Definitions used to state the properties -/

/-- The instrumented tasks with one more time pair at the end of phase `E`. -/
def instrumentable.with_pair {N : Nat} (s : instrumentable N) (E : Fin N)
    (tp : time_pair) : instrumentable N :=
  s.modify_tps E (fun tps => tps ++ [tp])

/-- The operations that are performed when a list of operations is run in
order and the run stops after the first one that does not complete. -/
def performed (h : Host) : List op → List op
  | [] => []
  | o :: os => o :: (if h.result o = run_result.completed then performed h os else [])

/-- What `do_fetch` of the stylesheets is meant to do: for every release, in
declaration order, the download into `<cache>/<name>.7z`, then the extraction
of that file into `<build>/<name>-v<version>`. -/
def stylesheets.fetch_plan {N : Nat} (c : conf N) : List op :=
  (stylesheets.releases c).flatMap fun r =>
    [op.download (stylesheets.release_url r) (path_append c.cache (r.name ++ ".7z")),
     op.extract (path_append c.cache (r.name ++ ".7z"))
       (path_append c.build (r.name ++ "-v" ++ r.version))]

/-- What `do_build_and_install` of the stylesheets is meant to do: for every
release, in declaration order, the copy of `<build>/<name>-v<version>/*` into
the stylesheets install directory. -/
def stylesheets.install_plan {N : Nat} (c : conf N) : List op :=
  (stylesheets.releases c).map fun r =>
    op.copy_glob_to_dir_if_better
      (path_append (path_append c.build (r.name ++ "-v" ++ r.version)) "*")
      c.install_stylesheets true true

/-! ## Paths as the host resolves them -/

/-- The characters that separate the components of a path on the host: the
slash and the backslash. -/
def is_separator (c : Char) : Bool :=
  c == '/' || c == Char.ofNat 92

/-- One component met during lexical normalisation, with the components kept
so far (last one first): an empty component and `.` are dropped, `..` removes
the component before it when there is one to remove, anything else is kept. -/
def normal_step (st : List (List Char)) (comp : List Char) : List (List Char) :=
  if comp = [] ∨ comp = ['.'] then st
  else if comp = ['.', '.'] then
    match st with
    | [] => [comp]
    | top :: rest => if top = ['.', '.'] then comp :: st else rest
  else comp :: st

/-- One character met during lexical normalisation: a separator ends the
current component, any other character extends it. -/
def normal_scan (state : List (List Char) × List Char) (c : Char) :
    List (List Char) × List Char :=
  if is_separator c then (normal_step state.1 state.2, [])
  else (state.1, state.2 ++ [c])

/-- The components of `p.lexically_normal()`: the directory a path names on a
host that resolves `.` and `..` by the text of the path. -/
def lexically_normal (p : String) : List String :=
  let st := p.data.foldl normal_scan ([], [])
  (normal_step st.1 st.2).reverse.map String.mk

/-! ## Instrumentation with the storage of the vectors -/

/-- A `std::vector<time_pair>` with its storage: the elements, the capacity of
the buffer that holds them, and which buffer that is (every reallocation moves
the elements to a new one). -/
structure tp_vector where
  elems : List time_pair
  capacity : Nat
  buffer : Nat
deriving DecidableEq, Repr

/-- A reference `time_pair&` to an element of such a vector: the buffer it points
into and the position there. -/
structure tp_ref where
  buffer : Nat
  index : Nat
deriving DecidableEq, Repr

/-- An update of the element at one position of a list. -/
def modify_at {α : Type} (g : α → α) : Nat → List α → List α
  | _, [] => []
  | 0, a :: l => g a :: l
  | i + 1, a :: l => a :: modify_at g i l

/-- The call `v.push_back(x)`: the element goes to the end; when the buffer is
full the elements move to a new, larger buffer, of the capacity the growth
policy `grow` of the library gives, or just enough when that is too small. -/
def tp_vector.push_back (grow : Nat → Nat) (v : tp_vector) (x : time_pair) : tp_vector :=
  if v.elems.length < v.capacity then { v with elems := v.elems ++ [x] }
  else
    { elems := v.elems ++ [x],
      capacity := max (grow v.capacity) (v.elems.length + 1),
      buffer := v.buffer + 1 }

/-- The reference `v.back()`. -/
def tp_vector.back (v : tp_vector) : tp_ref :=
  { buffer := v.buffer, index := v.elems.length - 1 }

/-- An assignment through a reference. A reference into a buffer the vector
has left dangles; writing through it is undefined behaviour, and is taken here
as a write that does not reach the vector. -/
def tp_vector.write (v : tp_vector) (r : tp_ref) (g : time_pair → time_pair) : tp_vector :=
  if r.buffer = v.buffer then { v with elems := modify_at g r.index v.elems } else v

/-- The growth policy of the vector of the Microsoft standard library, which
mob is built with: half of the old capacity is added. -/
def msvc_growth (c : Nat) : Nat :=
  c + c / 2

/-- The struct `instrumentable::task`, its vector with its storage. -/
structure stored_task where
  name : String
  tps : tp_vector
deriving DecidableEq, Repr

/-- The members of `instrumentable<N>`, the vectors with their storage. -/
structure stored_instrumentable (N : Nat) where
  name_ : String
  tasks_ : Fin N → stored_task

/-- An update of the vector of the task `std::get<E>(tasks_)`. -/
def stored_instrumentable.update_tps {N : Nat} (s : stored_instrumentable N) (E : Fin N)
    (g : tp_vector → tp_vector) : stored_instrumentable N :=
  { s with tasks_ := fun i =>
      if i = E then { s.tasks_ i with tps := g (s.tasks_ i).tps } else s.tasks_ i }

/-- Any callable `F` given to `instrument`: besides acting on the world it may
call `instrument` on the same instrumentable, so it hands back the instrumented
tasks as its own calls left them. -/
def reentrant_body (N : Nat) (ε α : Type) : Type :=
  stored_instrumentable N → World → outcome ε α × stored_instrumentable N × World

/-- The instrumented tasks when the body of `instrument<E>` starts: the new pair
is pushed and its start is set. -/
def stored_instrumentable.started {N : Nat} (grow : Nat → Nat)
    (s : stored_instrumentable N) (E : Fin N) (w : World) : stored_instrumentable N :=
  -- t.tps.push_back({});
  let s1 := s.update_tps E (fun v => v.push_back grow { start := 0, end_ := 0 })
  -- t.tps.back().start = timestamp();
  s1.update_tps E (fun v => v.write v.back (fun tp => { tp with start := timestamp w }))

/-- The template `instrument<E>(f)` for any callable, with the reference that
`timing_ender` keeps to the pair as it was `back()` when `f` started. -/
def stored_instrumentable.instrument {N : Nat} {ε α : Type} (grow : Nat → Nat)
    (s : stored_instrumentable N) (E : Fin N) (f : reentrant_body N ε α) (w : World) :
    outcome ε α × stored_instrumentable N × World :=
  let s2 := s.started grow E w
  -- timing_ender te(t.tps.back());
  let te := (s2.tasks_ E).tps.back
  -- return f();
  let r := f s2 w
  -- ~timing_ender(): tp.end = timestamp();
  let s3 := r.2.1.update_tps E
    (fun v => v.write te (fun tp => { tp with end_ := timestamp r.2.2 }))
  (r.1, s3, r.2.2)

/-- The instrumented tasks without their storage. -/
def stored_instrumentable.ledger {N : Nat} (s : stored_instrumentable N) : instrumentable N :=
  { name_ := s.name_,
    tasks_ := fun i => { name := (s.tasks_ i).name, tps := (s.tasks_ i).tps.elems } }

/-- A body that does not call `instrument`, as a callable. -/
def phase_body.reentrant {N : Nat} {ε α : Type} (f : phase_body N ε α) :
    reentrant_body N ε α :=
  fun s w => ((f s.ledger w).1, s, (f s.ledger w).2)

/-! ## Sample inputs -/

/-- The enumerators of the `jom` tool as four distinct bits: `single_job = 1`,
`allow_failure = 2`, `terminate_on_interrupt = 4` and the `allow_failure` of
the process `8`. -/
def sample_jom_consts : jom_consts :=
  { single_job := 1, allow_failure := 2, terminate_on_interrupt := 4,
    process_allow_failure := 8 }

/-- Three calls of `instrument`: a body that returns after 5 ticks, one that
throws an error after 2 ticks and one that is cancelled at once, each called
one tick after the previous one ended. -/
def sample_calls : List (call 2 String Unit) :=
  [ { gap := fun w => { w with time := w.time + 1 },
      body := fun _ w => (outcome.returned (), { w with time := w.time + 5 }) },
    { gap := fun w => { w with time := w.time + 1 },
      body := fun _ w => (outcome.raised "failed", { w with time := w.time + 2 }) },
    { gap := fun w => { w with time := w.time + 1 },
      body := fun _ w => (outcome.bailed "interrupted", w) } ]

/-- An instrumentable with two phases, the first of which has one pair from an
earlier run. -/
def sample_ledger : instrumentable 2 :=
  { name_ := "task",
    tasks_ := fun i =>
      if i = 0 then { name := "fetch", tps := [{ start := 1, end_ := 4 }] }
      else { name := "clean", tps := [] } }

/-- A configuration with short paths and every version set to `1.9.2`. -/
def sample_conf : conf 3 :=
  { build := "build", cache := "cache", install_stylesheets := "install/stylesheets",
    version_by_name := fun _ => "1.9.2",
    make_git_url := fun org repo => "https://github.com/" ++ org ++ "/" ++ repo,
    reclone := 1, times_clean := 0, times_fetch := 1, times_install := 2 }

/-- A host on which every operation completes and takes one tick. -/
def sample_host : Host :=
  { result := fun _ => run_result.completed, duration := fun _ => 1 }

/-- An instrumentable with three phases and nothing recorded. -/
def sample_task : instrumentable 3 :=
  instrumentable.new "task" (fun _ => "phase")

/-- A configuration in which the version of `paper-mono` climbs out of its own
directory and the other versions are `2`. -/
def sample_conf_dotdot : conf 3 :=
  { build := "build", cache := "cache", install_stylesheets := "install/stylesheets",
    version_by_name := fun key =>
      if key = "ss_paper_mono_6788" then "1/../paper-automata-v2" else "2",
    make_git_url := fun org repo => "https://github.com/" ++ org ++ "/" ++ repo,
    reclone := 1, times_clean := 0, times_fetch := 1, times_install := 2 }

/-- An instrumentable with two phases, nothing recorded and nothing allocated. -/
def sample_storage : stored_instrumentable 2 :=
  { name_ := "task",
    tasks_ := fun _ => { name := "phase", tps := { elems := [], capacity := 0, buffer := 0 } } }

/-- A body that takes two ticks, then calls `instrument<0>` with a body that
returns after five ticks, then takes three more ticks and returns. -/
def sample_nested_body : reentrant_body 2 String Unit :=
  fun s w =>
    let r := s.instrument msvc_growth 0
      (fun s1 w1 => (outcome.returned (), s1, { w1 with time := w1.time + 5 }))
      { w with time := w.time + 2 }
    (r.1, r.2.1, { r.2.2 with time := r.2.2.time + 3 })

/-! # Properties -/

/-! ## Substring search -/

theorem find_from_ne_none_iff (pat s : List Char) (i : Nat) :
    find_from pat s i ≠ none ↔ pat <:+: s := by
  induction s generalizing i with
  | nil =>
    by_cases h : pat = []
    · simp [find_from, h]
    · simp [find_from, h]
  | cons c cs ih =>
    rw [find_from, List.infix_cons_iff]
    by_cases h : pat.isPrefixOf (c :: cs) = true
    · have h' : pat <+: c :: cs := List.isPrefixOf_iff_prefix.mp h
      simp [h, h']
    · have h' : ¬ pat <+: c :: cs := fun hp => h (List.isPrefixOf_iff_prefix.mpr hp)
      simp only [h, if_false, Bool.false_eq_true]
      rw [ih]
      simp [h']

theorem string_find_ne_none_iff (s pat : String) :
    string_find s pat ≠ none ↔ pat.data <:+: s.data :=
  find_from_ne_none_iff pat.data s.data 0

theorem banner_filter_hit (f : filter)
    (h : "empower your cores".data <:+: f.line.data) :
    jom.banner_filter f = { f with lv := level.trace } := by
  unfold jom.banner_filter
  rw [if_pos ((string_find_ne_none_iff _ _).mpr h)]

theorem banner_filter_miss (f : filter)
    (h : ¬ "empower your cores".data <:+: f.line.data) :
    jom.banner_filter f = f := by
  unfold jom.banner_filter
  rw [if_neg (fun hh => h ((string_find_ne_none_iff _ _).mp hh))]

theorem do_run_stderr_filter (k : jom_consts) (tool : String) (j : jom) :
    (jom.do_run k tool j).process_.stderr_filter_ = jom.banner_filter := by
  unfold jom.do_run
  by_cases h1 : is_any_set j.flags_ k.allow_failure = true <;>
  by_cases h2 : is_any_set j.flags_ k.single_job = true <;>
  simp [h1, h2, process.env, process.flags, process.arg, process.arg2,
    process.stderr_filter, process.binary, process.stderr_level]

theorem do_run_stderr_level (k : jom_consts) (tool : String) (j : jom) :
    (jom.do_run k tool j).process_.stderr_level_ =
      if is_any_set j.flags_ k.allow_failure then level.trace
      else j.process_.stderr_level_ := by
  unfold jom.do_run
  by_cases h1 : is_any_set j.flags_ k.allow_failure = true <;>
  by_cases h2 : is_any_set j.flags_ k.single_job = true <;>
  simp [h1, h2, process.env, process.flags, process.arg, process.arg2,
    process.stderr_filter, process.binary, process.stderr_level]

theorem do_run_arg_strings (k : jom_consts) (tool : String) (j : jom) :
    (jom.do_run k tool j).process_.arg_strings =
      j.process_.arg_strings ++ ["/C", "/S", "/L", "/D", "/P", "/W", "/K"] ++
        (if is_any_set j.flags_ k.single_job then ["/J", "1"] else []) ++
        [j.target_] := by
  unfold jom.do_run
  by_cases h1 : is_any_set j.flags_ k.allow_failure = true <;>
  by_cases h2 : is_any_set j.flags_ k.single_job = true <;>
  simp [h1, h2, process.env, process.flags, process.arg, process.arg2,
    process.stderr_filter, process.binary, process.stderr_level,
    process.arg_strings]

theorem foldl_def_arg_strings (ds : List String) (j : jom) :
    (ds.foldl jom.def_ j).process_.arg_strings = j.process_.arg_strings ++ ds ∧
    (ds.foldl jom.def_ j).target_ = j.target_ ∧
    (ds.foldl jom.def_ j).flags_ = j.flags_ := by
  induction ds generalizing j with
  | nil => simp
  | cons d ds ih =>
    rw [List.foldl_cons]
    obtain ⟨h1, h2, h3⟩ := ih (j.def_ d)
    refine ⟨?_, ?_, ?_⟩
    · rw [h1]; simp [jom.def_, process.arg, process.arg_strings]
    · rw [h2]; rfl
    · rw [h3]; rfl

theorem configure_fields (j : jom) (ds : List String) (t : String) (f : Nat) :
    (jom.configure j ds t f).process_.arg_strings = j.process_.arg_strings ++ ds ∧
    (jom.configure j ds t f).target_ = t ∧
    (jom.configure j ds t f).flags_ = f := by
  obtain ⟨h1, -, -⟩ := foldl_def_arg_strings ds j
  exact ⟨h1, rfl, rfl⟩

/-- C1, as the code has it: every line of standard error that contains the
text `empower your cores` in exactly this spelling, after any leading text
(white space included) and before any trailing text, leaves the filter that
`jom::do_run` installs with severity trace and with its text unchanged,
whatever severity it came in with and whatever the flags of the run. -/
theorem jom_banner_exact_text_to_trace (k : jom_consts) (tool : String) (j : jom)
    (before after : String) (lv : level) :
    (jom.do_run k tool j).process_.stderr_filter_
        { line := before ++ "empower your cores" ++ after, lv := lv } =
      { line := before ++ "empower your cores" ++ after, lv := level.trace } := by
  rw [do_run_stderr_filter]
  rw [banner_filter_hit]
  exact ⟨before.data, after.data, by simp [String.data_append]⟩

/-- C1 fails as stated: the banner written `  Empower Your Cores`, with other
letter case, keeps the severity it came in with (error here) and is not set to
trace. -/
theorem jom_banner_other_case_not_trace :
    ((jom.do_run sample_jom_consts "jom.exe"
        (jom.configure (jom.new level.error) [] "all" 0)).process_.stderr_filter_
      { line := "  Empower Your Cores", lv := level.error }).lv = level.error ∧
    level.error ≠ level.trace := by
  decide

/-- C2, as the code has it: for a freshly constructed tool given the
definitions `ds` in order, the target `t` and the flags `f`, the arguments
`jom::do_run` starts the process with are `ds`, then `/C /S /L /D /P /W /K`,
then `/J 1` exactly when `single_job` is among the flags, then `t` last. So a
run with `single_job` always carries `/J 1`, what `do_run` itself puts between
the definitions and the target contains `/J` if and only if `single_job` is
set, and a run without `single_job` carries no `/J` unless the caller passed
`/J` as a definition or as the target. -/
theorem jom_do_run_argument_list (k : jom_consts) (tool : String) (lv : level)
    (ds : List String) (t : String) (f : Nat) :
    (jom.do_run k tool (jom.configure (jom.new lv) ds t f)).process_.arg_strings =
      ds ++ (["/C", "/S", "/L", "/D", "/P", "/W", "/K"] ++
        (if is_any_set f k.single_job then ["/J", "1"] else [])) ++ [t] ∧
    (is_any_set f k.single_job = true →
      (jom.do_run k tool (jom.configure (jom.new lv) ds t f)).process_.arg_strings =
        ds ++ ["/C", "/S", "/L", "/D", "/P", "/W", "/K"] ++ ["/J", "1"] ++ [t]) ∧
    ("/J" ∈ ["/C", "/S", "/L", "/D", "/P", "/W", "/K"] ++
        (if is_any_set f k.single_job then ["/J", "1"] else []) ↔
      is_any_set f k.single_job = true) ∧
    ("/J" ∉ ds → t ≠ "/J" →
      ("/J" ∈ (jom.do_run k tool
          (jom.configure (jom.new lv) ds t f)).process_.arg_strings ↔
        is_any_set f k.single_job = true)) := by
  obtain ⟨h1, h2, h3⟩ := configure_fields (jom.new lv) ds t f
  have hlist : (jom.do_run k tool (jom.configure (jom.new lv) ds t f)).process_.arg_strings =
      ds ++ (["/C", "/S", "/L", "/D", "/P", "/W", "/K"] ++
        (if is_any_set f k.single_job then ["/J", "1"] else [])) ++ [t] := by
    rw [do_run_arg_strings, h1, h2, h3]
    simp [jom.new, process.fresh, process.arg_strings]
  have hmid : "/J" ∈ ["/C", "/S", "/L", "/D", "/P", "/W", "/K"] ++
        (if is_any_set f k.single_job then ["/J", "1"] else []) ↔
      is_any_set f k.single_job = true := by
    by_cases h : is_any_set f k.single_job = true
    · simp [h]
    · simp only [h, if_false, Bool.false_eq_true, List.append_nil, iff_false]
      decide
  refine ⟨hlist, fun hs => ?_, hmid, fun hds ht => ?_⟩
  · rw [hlist, if_pos hs]
    simp
  · rw [hlist, List.mem_append, List.mem_append, List.mem_singleton, hmid]
    constructor
    · rintro ((h | h) | h)
      · exact absurd h hds
      · exact h
      · exact absurd h.symm ht
    · intro h
      exact Or.inl (Or.inr h)

/-- C2 fails as stated: a tool without `single_job` whose caller passed `/J` as
a definition is run with a `/J` argument. -/
theorem jom_def_carries_J_without_single_job :
    is_any_set 0 sample_jom_consts.single_job = false ∧
    (jom.do_run sample_jom_consts "jom.exe"
        (jom.configure (jom.new level.error) ["/J"] "all" 0)).process_.arg_strings =
      ["/J", "/C", "/S", "/L", "/D", "/P", "/W", "/K", "all"] ∧
    "/J" ∈ (jom.do_run sample_jom_consts "jom.exe"
        (jom.configure (jom.new level.error) ["/J"] "all" 0)).process_.arg_strings := by
  decide

/-- C2 on samples: two definitions and the target `all`, once with
`single_job` and once without flags. -/
theorem jom_do_run_argument_list_sample :
    "/J" ∉ ["A=1", "B=2"] ∧ "all" ≠ "/J" ∧
    (jom.do_run sample_jom_consts "jom.exe"
        (jom.configure (jom.new level.error) ["A=1", "B=2"] "all"
          sample_jom_consts.single_job)).process_.arg_strings =
      ["A=1", "B=2", "/C", "/S", "/L", "/D", "/P", "/W", "/K", "/J", "1", "all"] ∧
    "/J" ∉ (jom.do_run sample_jom_consts "jom.exe"
        (jom.configure (jom.new level.error) ["A=1", "B=2"] "all" 0)).process_.arg_strings := by
  have h1 := jom_do_run_argument_list sample_jom_consts "jom.exe" level.error
    ["A=1", "B=2"] "all" sample_jom_consts.single_job
  have h0 := jom_do_run_argument_list sample_jom_consts "jom.exe" level.error
    ["A=1", "B=2"] "all" 0
  refine ⟨by decide, by decide, (h1.2.1 (by decide)).trans (by decide), ?_⟩
  intro hmem
  exact absurd ((h0.2.2.2 (by decide) (by decide)).mp hmem) (by decide)

/-- C5, as the code has it: in every run the filter that `jom::do_run` installs
changes nothing but the severity, sets it to trace, and does so only for lines
that contain `empower your cores`; every other line leaves the filter as it
entered. The severity a line of standard error enters with is the level of the
stream, which `do_run` sets to trace when `allow_failure` is among the flags
and leaves as configured otherwise. -/
theorem jom_stderr_severity (k : jom_consts) (tool : String) (j : jom)
    (line : String) :
    (∀ f : filter, (jom.do_run k tool j).process_.stderr_filter_ f =
      if "empower your cores".data <:+: f.line.data then { f with lv := level.trace }
      else f) ∧
    ((jom.do_run k tool j).process_.stderr_line line).line = line ∧
    ((jom.do_run k tool j).process_.stderr_line line).lv =
      if "empower your cores".data <:+: line.data then level.trace
      else if is_any_set j.flags_ k.allow_failure then level.trace
      else j.process_.stderr_level_ := by
  have hf : ∀ f : filter, (jom.do_run k tool j).process_.stderr_filter_ f =
      if "empower your cores".data <:+: f.line.data then { f with lv := level.trace }
      else f := by
    intro f
    rw [do_run_stderr_filter]
    by_cases h : "empower your cores".data <:+: f.line.data
    · rw [if_pos h, banner_filter_hit f h]
    · rw [if_neg h, banner_filter_miss f h]
  refine ⟨hf, ?_, ?_⟩
  · unfold process.stderr_line
    rw [hf]
    split <;> rfl
  · unfold process.stderr_line
    rw [hf, do_run_stderr_level]
    by_cases h : "empower your cores".data <:+: line.data
    · simp [h]
    · simp [h]

/-- C5 fails as stated: the line `NMAKE : fatal error U1077` does not contain
the banner; a run without flags logs it at the level of the stream (error
here), a run whose flags are `allow_failure` logs it at trace. -/
theorem jom_allow_failure_all_lines_trace :
    string_find "NMAKE : fatal error U1077" "empower your cores" = none ∧
    ((jom.do_run sample_jom_consts "jom.exe"
        (jom.configure (jom.new level.error) [] "all" 0)).process_.stderr_line
      "NMAKE : fatal error U1077").lv = level.error ∧
    ((jom.do_run sample_jom_consts "jom.exe"
        (jom.configure (jom.new level.error) [] "all"
          sample_jom_consts.allow_failure)).process_.stderr_line
      "NMAKE : fatal error U1077").lv = level.trace := by
  decide

/-! ## Instrumentation -/

theorem modify_back_append_singleton {α : Type} (g : α → α) (l : List α) (a : α) :
    modify_back g (l ++ [a]) = l ++ [g a] := by
  induction l with
  | nil => rfl
  | cons b l ih =>
    cases l with
    | nil => rfl
    | cons c l =>
      have : modify_back g (b :: c :: l ++ [a]) = b :: modify_back g (c :: l ++ [a]) := rfl
      rw [this, ih]
      rfl

theorem modify_tps_tasks_self {N : Nat} (s : instrumentable N) (E : Fin N)
    (g : List time_pair → List time_pair) :
    ((s.modify_tps E g).tasks_ E).tps = g (s.tasks_ E).tps := by
  simp [instrumentable.modify_tps]

theorem modify_tps_tasks_name {N : Nat} (s : instrumentable N) (E i : Fin N)
    (g : List time_pair → List time_pair) :
    ((s.modify_tps E g).tasks_ i).name = (s.tasks_ i).name := by
  unfold instrumentable.modify_tps
  by_cases h : i = E <;> simp [h]

theorem modify_tps_tasks_other {N : Nat} (s : instrumentable N) (E i : Fin N)
    (g : List time_pair → List time_pair) (h : i ≠ E) :
    (s.modify_tps E g).tasks_ i = s.tasks_ i := by
  simp [instrumentable.modify_tps, h]

theorem modify_tps_modify_tps {N : Nat} (s : instrumentable N) (E : Fin N)
    (g1 g2 : List time_pair → List time_pair) :
    (s.modify_tps E g1).modify_tps E g2 = s.modify_tps E (fun l => g2 (g1 l)) := by
  unfold instrumentable.modify_tps
  congr 1
  funext i
  by_cases h : i = E <;> simp [h]

theorem modify_tps_congr {N : Nat} (s : instrumentable N) (E : Fin N)
    (g1 g2 : List time_pair → List time_pair) (h : ∀ l, g1 l = g2 l) :
    s.modify_tps E g1 = s.modify_tps E g2 := by
  have : g1 = g2 := funext h
  rw [this]

/-- The instrumented tasks a body sees: the new pair is there, with its start
set and its end still zero. -/
theorem instrument_seen {N : Nat} (s : instrumentable N) (E : Fin N) (w : World) :
    (s.modify_tps E (fun tps => tps ++ [{ start := 0, end_ := 0 }])).modify_tps E
        (modify_back (fun tp => { tp with start := timestamp w })) =
      s.with_pair E { start := timestamp w, end_ := 0 } := by
  rw [modify_tps_modify_tps]
  unfold instrumentable.with_pair
  apply modify_tps_congr
  intro l
  rw [modify_back_append_singleton]

theorem with_pair_set_end {N : Nat} (s : instrumentable N) (E : Fin N) (a b c : Int) :
    (s.with_pair E { start := a, end_ := b }).modify_tps E
        (modify_back (fun tp => { tp with end_ := c })) =
      s.with_pair E { start := a, end_ := c } := by
  unfold instrumentable.with_pair
  rw [modify_tps_modify_tps]
  apply modify_tps_congr
  intro l
  rw [modify_back_append_singleton]

theorem instrument_eq {N : Nat} {ε α : Type} (s : instrumentable N) (E : Fin N)
    (f : phase_body N ε α) (w : World) :
    s.instrument E f w =
      ((f (s.with_pair E { start := timestamp w, end_ := 0 }) w).1,
        s.with_pair E
          { start := timestamp w,
            end_ := timestamp (f (s.with_pair E { start := timestamp w, end_ := 0 }) w).2 },
        (f (s.with_pair E { start := timestamp w, end_ := 0 }) w).2) := by
  unfold instrumentable.instrument
  simp only [instrument_seen, with_pair_set_end]

theorem with_pair_tps {N : Nat} (s : instrumentable N) (E : Fin N) (tp : time_pair) :
    ((s.with_pair E tp).tasks_ E).tps = (s.tasks_ E).tps ++ [tp] :=
  modify_tps_tasks_self s E _

theorem with_pair_other {N : Nat} (s : instrumentable N) (E i : Fin N) (tp : time_pair)
    (h : i ≠ E) : (s.with_pair E tp).tasks_ i = s.tasks_ i :=
  modify_tps_tasks_other s E i _ h

theorem with_pair_name {N : Nat} (s : instrumentable N) (E i : Fin N) (tp : time_pair) :
    ((s.with_pair E tp).tasks_ i).name = (s.tasks_ i).name :=
  modify_tps_tasks_name s E i _

theorem instrument_all_tps {N : Nat} {ε α : Type} (E : Fin N)
    (cs : List (call N ε α)) (s : instrumentable N) (w : World) :
    ((instrument_all E cs s w).1.tasks_ E).tps =
      (s.tasks_ E).tps ++ call_times E cs s w := by
  induction cs generalizing s w with
  | nil => simp [instrument_all, call_times]
  | cons c cs ih =>
    simp only [instrument_all, call_times]
    rw [ih]
    simp only [instrument_eq, with_pair_tps, timestamp]
    simp

theorem instrument_all_other {N : Nat} {ε α : Type} (E : Fin N)
    (cs : List (call N ε α)) (s : instrumentable N) (w : World) (i : Fin N)
    (h : i ≠ E) :
    (instrument_all E cs s w).1.tasks_ i = s.tasks_ i := by
  induction cs generalizing s w with
  | nil => rfl
  | cons c cs ih =>
    simp only [instrument_all]
    rw [ih]
    simp only [instrument_eq]
    exact with_pair_other s E i _ h

theorem call_times_length {N : Nat} {ε α : Type} (E : Fin N)
    (cs : List (call N ε α)) (s : instrumentable N) (w : World) :
    (call_times E cs s w).length = cs.length := by
  induction cs generalizing s w with
  | nil => rfl
  | cons c cs ih => simp only [call_times, List.length_cons, ih]

theorem call_times_le {N : Nat} {ε α : Type} (E : Fin N)
    (cs : List (call N ε α)) (s : instrumentable N) (w : World)
    (h : ∀ c ∈ cs, clock_monotone c.body) :
    ∀ tp ∈ call_times E cs s w, tp.start ≤ tp.end_ := by
  induction cs generalizing s w with
  | nil => intro tp htp; simp [call_times] at htp
  | cons c cs ih =>
    intro tp htp
    simp only [call_times, List.mem_cons] at htp
    rcases htp with rfl | htp
    · simp only [instrument_eq]
      exact h c (List.mem_cons_self _ _) _ _
    · exact ih _ _ (fun c' hc' => h c' (List.mem_cons_of_mem _ hc')) tp htp

/-- C3: after any sequence of calls of `instrument<E>` on one instrumentable,
each body returning, throwing an error or throwing `bailed`, the time pairs of
phase `E` are the ones it had before followed by one pair per call, in the
order of the calls, holding the clock readings right before and right after
that call's body; so there are exactly as many new pairs as calls. The task of
every other phase is unchanged, and when the clock never goes back while a body
runs, every new pair has `end >= start`. -/
theorem instrument_ledger_sequence {N : Nat} {ε α : Type} (E : Fin N)
    (cs : List (call N ε α)) (s : instrumentable N) (w : World) :
    ((instrument_all E cs s w).1.tasks_ E).tps =
      (s.tasks_ E).tps ++ call_times E cs s w ∧
    (call_times E cs s w).length = cs.length ∧
    ((instrument_all E cs s w).1.tasks_ E).tps.length =
      (s.tasks_ E).tps.length + cs.length ∧
    (∀ i, i ≠ E → (instrument_all E cs s w).1.tasks_ i = s.tasks_ i) ∧
    ((∀ c ∈ cs, clock_monotone c.body) →
      ∀ tp ∈ call_times E cs s w, tp.start ≤ tp.end_) := by
  refine ⟨instrument_all_tps E cs s w, call_times_length E cs s w, ?_,
    fun i hi => instrument_all_other E cs s w i hi, call_times_le E cs s w⟩
  rw [instrument_all_tps, List.length_append, call_times_length]

/-- For a body that does not call `instrument` itself: `instrument<E>(f)` runs
`f` on instrumented tasks in which the new pair of phase `E` is already
appended with its start set to the clock reading before `f` and its end still
zero; whatever way `f` ends, `instrument` ends the same way (the same value
returned, the same error or the same `bailed` thrown) and leaves the world as
`f` left it, and the new pair is still the last pair of phase `E`, with that
start and with its end set to the clock reading after `f`. -/
theorem instrument_forwards_and_closes {N : Nat} {ε α : Type} (s : instrumentable N)
    (E : Fin N) (f : phase_body N ε α) (w : World) :
    ((s.with_pair E { start := timestamp w, end_ := 0 }).tasks_ E).tps =
      (s.tasks_ E).tps ++ [{ start := timestamp w, end_ := 0 }] ∧
    (s.instrument E f w).1 =
      (f (s.with_pair E { start := timestamp w, end_ := 0 }) w).1 ∧
    (s.instrument E f w).2.2 =
      (f (s.with_pair E { start := timestamp w, end_ := 0 }) w).2 ∧
    ((s.instrument E f w).2.1.tasks_ E).tps =
      (s.tasks_ E).tps ++
        [{ start := timestamp w,
           end_ := timestamp (f (s.with_pair E { start := timestamp w, end_ := 0 }) w).2 }] := by
  rw [instrument_eq]
  exact ⟨with_pair_tps s E _, rfl, rfl, with_pair_tps s E _⟩

/-! ## Instrumentation with re-entrant bodies -/

theorem modify_at_length_append {α : Type} (g : α → α) (l : List α) (a : α) :
    modify_at g l.length (l ++ [a]) = l ++ [g a] := by
  induction l with
  | nil => rfl
  | cons b l ih => simp [modify_at, ih]

theorem push_back_elems (grow : Nat → Nat) (v : tp_vector) (x : time_pair) :
    (v.push_back grow x).elems = v.elems ++ [x] := by
  unfold tp_vector.push_back
  split <;> rfl

theorem write_back_push_back (grow : Nat → Nat) (v : tp_vector) (x : time_pair)
    (g : time_pair → time_pair) :
    ((v.push_back grow x).write (v.push_back grow x).back g).elems = v.elems ++ [g x] ∧
    ((v.push_back grow x).write (v.push_back grow x).back g).buffer =
      (v.push_back grow x).buffer ∧
    ((v.push_back grow x).write (v.push_back grow x).back g).back =
      { buffer := (v.push_back grow x).buffer, index := v.elems.length } := by
  have he := push_back_elems grow v x
  have hw : (v.push_back grow x).write (v.push_back grow x).back g =
      { v.push_back grow x with elems := v.elems ++ [g x] } := by
    unfold tp_vector.write tp_vector.back
    rw [if_pos rfl, he]
    simp only [List.length_append, List.length_singleton, Nat.add_sub_cancel]
    rw [modify_at_length_append]
  rw [hw]
  refine ⟨rfl, rfl, ?_⟩
  unfold tp_vector.back
  simp

theorem update_tps_self {N : Nat} (s : stored_instrumentable N) (E : Fin N)
    (g : tp_vector → tp_vector) :
    ((s.update_tps E g).tasks_ E).tps = g (s.tasks_ E).tps := by
  simp [stored_instrumentable.update_tps]

theorem update_tps_other {N : Nat} (s : stored_instrumentable N) (E i : Fin N)
    (g : tp_vector → tp_vector) (h : i ≠ E) :
    (s.update_tps E g).tasks_ i = s.tasks_ i := by
  simp [stored_instrumentable.update_tps, h]

theorem started_tps {N : Nat} (grow : Nat → Nat) (s : stored_instrumentable N)
    (E : Fin N) (w : World) :
    ((s.started grow E w).tasks_ E).tps.elems =
      (s.tasks_ E).tps.elems ++ [{ start := timestamp w, end_ := 0 }] ∧
    ((s.started grow E w).tasks_ E).tps.back =
      { buffer := ((s.started grow E w).tasks_ E).tps.buffer,
        index := (s.tasks_ E).tps.elems.length } := by
  unfold stored_instrumentable.started
  simp only [update_tps_self]
  have h := write_back_push_back grow (s.tasks_ E).tps { start := 0, end_ := 0 }
    (fun tp => { tp with start := timestamp w })
  refine ⟨h.1, ?_⟩
  rw [h.2.2, h.2.1]

/-- For every callable that leaves the vector of phase `E` as it found it (it
may call `instrument` for other phases), `instrument<E>(f)` ends the way `f`
ends and the pair it appended has its start and its end set. -/
theorem stored_instrument_closes {N : Nat} {ε α : Type} (grow : Nat → Nat)
    (s : stored_instrumentable N) (E : Fin N) (f : reentrant_body N ε α) (w : World)
    (hf : ((f (s.started grow E w) w).2.1.tasks_ E).tps = ((s.started grow E w).tasks_ E).tps) :
    (s.instrument grow E f w).1 = (f (s.started grow E w) w).1 ∧
    (s.instrument grow E f w).2.2 = (f (s.started grow E w) w).2.2 ∧
    ((s.instrument grow E f w).2.1.tasks_ E).tps.elems =
      (s.tasks_ E).tps.elems ++
        [{ start := timestamp w, end_ := timestamp (f (s.started grow E w) w).2.2 }] := by
  refine ⟨rfl, rfl, ?_⟩
  unfold stored_instrumentable.instrument
  simp only [update_tps_self, hf]
  obtain ⟨h1, h2⟩ := started_tps grow s E w
  rw [h2]
  unfold tp_vector.write
  simp only [if_true, h1]
  exact modify_at_length_append _ _ _

theorem update_tps_name {N : Nat} (s : stored_instrumentable N) (E i : Fin N)
    (g : tp_vector → tp_vector) :
    ((s.update_tps E g).tasks_ i).name = (s.tasks_ i).name := by
  unfold stored_instrumentable.update_tps
  by_cases h : i = E <;> simp [h]

theorem started_name {N : Nat} (grow : Nat → Nat) (s : stored_instrumentable N)
    (E i : Fin N) (w : World) :
    ((s.started grow E w).tasks_ i).name = (s.tasks_ i).name := by
  unfold stored_instrumentable.started
  rw [update_tps_name, update_tps_name]

theorem started_other {N : Nat} (grow : Nat → Nat) (s : stored_instrumentable N)
    (E i : Fin N) (w : World) (h : i ≠ E) :
    (s.started grow E w).tasks_ i = s.tasks_ i := by
  unfold stored_instrumentable.started
  rw [update_tps_other _ _ _ _ h, update_tps_other _ _ _ _ h]

theorem instrumentable_ext {N : Nat} (a b : instrumentable N) (hn : a.name_ = b.name_)
    (ht : ∀ i, (a.tasks_ i).name = (b.tasks_ i).name ∧ (a.tasks_ i).tps = (b.tasks_ i).tps) :
    a = b := by
  obtain ⟨an, at_⟩ := a
  obtain ⟨bn, bt⟩ := b
  simp only at hn ht
  subst hn
  congr 1
  funext i
  obtain ⟨h1, h2⟩ := ht i
  cases hx : at_ i
  cases hy : bt i
  rw [hx, hy] at h1 h2
  simp only at h1 h2
  rw [h1, h2]

theorem started_ledger {N : Nat} (grow : Nat → Nat) (s : stored_instrumentable N)
    (E : Fin N) (w : World) :
    (s.started grow E w).ledger =
      s.ledger.with_pair E { start := timestamp w, end_ := 0 } := by
  apply instrumentable_ext
  · rfl
  · intro i
    refine ⟨?_, ?_⟩
    · rw [with_pair_name]
      exact started_name grow s E i w
    · by_cases hi : i = E
      · subst hi
        rw [with_pair_tps]
        exact (started_tps grow s i w).1
      · rw [with_pair_other _ _ _ _ hi]
        show ((s.started grow E w).tasks_ i).tps.elems = (s.tasks_ i).tps.elems
        rw [started_other grow s E i w hi]

/-- On bodies that do not call `instrument`, the model with storage and the
model without it end the same way and record the same pairs. -/
theorem stored_instrument_ledger {N : Nat} {ε α : Type} (grow : Nat → Nat)
    (s : stored_instrumentable N) (E : Fin N) (f : phase_body N ε α) (w : World) :
    (s.instrument grow E f.reentrant w).1 = (s.ledger.instrument E f w).1 ∧
    (s.instrument grow E f.reentrant w).2.2 = (s.ledger.instrument E f w).2.2 ∧
    (s.instrument grow E f.reentrant w).2.1.ledger = (s.ledger.instrument E f w).2.1 := by
  have hseen := started_ledger grow s E w
  have hcl := stored_instrument_closes grow s E f.reentrant w rfl
  rw [instrument_eq]
  refine ⟨?_, ?_, ?_⟩
  · rw [hcl.1]; simp only [phase_body.reentrant, hseen]
  · rw [hcl.2.1]; simp only [phase_body.reentrant, hseen]
  · have h3 := hcl.2.2
    simp only [phase_body.reentrant, hseen] at h3
    generalize timestamp (f (s.ledger.with_pair E { start := timestamp w, end_ := 0 }) w).2 = t1
      at h3 ⊢
    apply instrumentable_ext
    · rfl
    · intro i
      refine ⟨?_, ?_⟩
      · rw [with_pair_name]
        show ((s.instrument grow E f.reentrant w).2.1.tasks_ i).name = (s.tasks_ i).name
        unfold stored_instrumentable.instrument
        simp only [phase_body.reentrant]
        rw [update_tps_name, started_name]
      · by_cases hi : i = E
        · subst hi
          rw [with_pair_tps]
          exact h3
        · rw [with_pair_other _ _ _ _ hi]
          show ((s.instrument grow E f.reentrant w).2.1.tasks_ i).tps.elems =
            (s.tasks_ i).tps.elems
          unfold stored_instrumentable.instrument
          simp only [phase_body.reentrant]
          rw [update_tps_other _ _ _ _ hi, started_other grow s E i w hi]

/-- C4 on the failing input: on an instrumentable that has recorded nothing, a
body that itself calls `instrument<0>` makes the vector of phase 0 move to a
new buffer while `timing_ender` of the outer call still refers to the old one.
The outer call returns what the body returned, at clock reading 20, but its
pair, the first of the two, keeps `end = 0`; only the pair of the inner call
has its end set. -/
theorem instrument_nested_call_leaves_end_unset :
    (sample_storage.instrument msvc_growth 0 sample_nested_body
      { time := 10, log := [] }).1 = outcome.returned () ∧
    timestamp (sample_storage.instrument msvc_growth 0 sample_nested_body
      { time := 10, log := [] }).2.2 = 20 ∧
    ((sample_storage.instrument msvc_growth 0 sample_nested_body
      { time := 10, log := [] }).2.1.tasks_ 0).tps.elems =
      [{ start := 10, end_ := 0 }, { start := 12, end_ := 17 }] := by
  decide

/-! ## Tasks -/

theorem performed_prefix (h : Host) (os : List op) : performed h os <+: os := by
  induction os with
  | nil => exact List.prefix_refl _
  | cons o os ih =>
    unfold performed
    by_cases hc : h.result o = run_result.completed
    · rw [if_pos hc]; exact (List.prefix_cons_inj o).mpr ih
    · rw [if_neg hc]; exact ⟨os, rfl⟩

theorem performed_all (h : Host) (os : List op)
    (hall : ∀ o ∈ os, h.result o = run_result.completed) : performed h os = os := by
  induction os with
  | nil => rfl
  | cons o os ih =>
    unfold performed
    rw [if_pos (hall o (List.mem_cons_self _ _)),
      ih (fun o' ho' => hall o' (List.mem_cons_of_mem _ ho'))]

theorem instrument_world {N : Nat} {α : Type} (t : instrumentable N) (E : Fin N)
    (m : Exec α) (w : World) :
    (t.instrument E m.body w).2.2 = (m w).2 ∧ (t.instrument E m.body w).1 = (m w).1 :=
  ⟨rfl, rfl⟩

theorem run_tool_log (h : Host) (o : op) (w : World) :
    (run_tool h o w).2.log = w.log ++ [o] := by
  unfold run_tool
  cases h.result o <;> rfl

theorem forEach_fetch_log {N : Nat} (c : conf N) (h : Host) (rs : List release) (w : World) :
    (Exec.forEach (stylesheets.fetch_one c h) rs w).2.log =
      w.log ++ performed h (rs.flatMap fun r =>
        [op.download (stylesheets.release_url r) (path_append c.cache (r.name ++ ".7z")),
         op.extract (path_append c.cache (r.name ++ ".7z"))
           (path_append c.build (r.name ++ "-v" ++ r.version))]) := by
  induction rs generalizing w with
  | nil => simp [Exec.forEach, Exec.ret, performed]
  | cons r rs ih =>
    simp only [Exec.forEach, Exec.andThen, stylesheets.fetch_one, run_tool,
      stylesheets.make_downloader_tool, downloader_result, stylesheets.cache_file,
      stylesheets.release_build_path, List.flatMap_cons, List.cons_append, List.nil_append,
      performed]
    cases h.result (op.download (stylesheets.release_url r)
        (path_append c.cache (r.name ++ ".7z"))) <;>
      cases h.result (op.extract (path_append c.cache (r.name ++ ".7z"))
        (path_append c.build (r.name ++ "-v" ++ r.version))) <;>
      simp [ih, ← List.flatMap_def]

theorem forEach_install_log {N : Nat} (c : conf N) (h : Host) (rs : List release) (w : World) :
    (Exec.forEach (stylesheets.install_one c h) rs w).2.log =
      w.log ++ performed h (rs.map fun r =>
        op.copy_glob_to_dir_if_better
          (path_append (path_append c.build (r.name ++ "-v" ++ r.version)) "*")
          c.install_stylesheets true true) := by
  induction rs generalizing w with
  | nil => simp [Exec.forEach, Exec.ret, performed]
  | cons r rs ih =>
    simp only [Exec.forEach, Exec.andThen, stylesheets.install_one, run_tool,
      List.map_cons, performed]
    cases h.result (op.copy_glob_to_dir_if_better
        (path_append (path_append c.build (r.name ++ "-v" ++ r.version)) "*")
        c.install_stylesheets true true) <;>
      simp [ih]

/-- C6: `stylesheets::releases()` has exactly four releases, named
`paper-light-and-dark`, `paper-automata`, `paper-mono` and `1809-dark-mode`;
`release_build_path(r)` is `<build>/<r.name>-v<r.version>`; the operations
`do_fetch` performs are, release by release in declaration order, the download
into `<cache>/<r.name>.7z` followed by the extraction of that same file into
`<build>/<r.name>-v<r.version>`, and the operations `do_build_and_install`
performs are the copies from `<build>/<r.name>-v<r.version>/*` into the
stylesheets install directory, each series up to the first operation that does
not complete, and all of it when every operation completes. -/
theorem stylesheets_fetch_and_install {N : Nat} (c : conf N) (h : Host)
    (t : instrumentable N) (w : World) :
    (stylesheets.releases c).length = 4 ∧
    (stylesheets.releases c).map release.name =
      ["paper-light-and-dark", "paper-automata", "paper-mono", "1809-dark-mode"] ∧
    (∀ r, stylesheets.release_build_path c r =
      path_append c.build (r.name ++ "-v" ++ r.version)) ∧
    (stylesheets.do_fetch c h t w).2.2.log =
      w.log ++ performed h (stylesheets.fetch_plan c) ∧
    (stylesheets.do_build_and_install c h t w).2.2.log =
      w.log ++ performed h (stylesheets.install_plan c) ∧
    ((∀ o, h.result o = run_result.completed) →
      (stylesheets.do_fetch c h t w).2.2.log = w.log ++ stylesheets.fetch_plan c ∧
      (stylesheets.do_build_and_install c h t w).2.2.log =
        w.log ++ stylesheets.install_plan c) := by
  have hf : (stylesheets.do_fetch c h t w).2.2.log =
      w.log ++ performed h (stylesheets.fetch_plan c) := by
    unfold stylesheets.do_fetch
    rw [(instrument_world t c.times_fetch _ w).1]
    exact forEach_fetch_log c h _ w
  have hi : (stylesheets.do_build_and_install c h t w).2.2.log =
      w.log ++ performed h (stylesheets.install_plan c) := by
    unfold stylesheets.do_build_and_install
    rw [(instrument_world t c.times_install _ w).1]
    exact forEach_install_log c h _ w
  refine ⟨rfl, rfl, fun r => rfl, hf, hi, fun hall => ?_⟩
  rw [hf, hi, performed_all h _ (fun o _ => hall o), performed_all h _ (fun o _ => hall o)]
  exact ⟨rfl, rfl⟩

/-- C7: when the configured version of spdlog is `v`, `source_path()` is
`<build>/spdlog-v`; `do_fetch` performs exactly one operation, the run of the
git tool on the repository `gabime/spdlog` with branch `v` and root
`<build>/spdlog-v`; `do_clean(c)` performs exactly one operation, the deletion
of the directory `<build>/spdlog-v`, when `(c & reclone) == reclone`, and
otherwise returns with the world untouched. -/
theorem spdlog_fetch_and_clean {N : Nat} (c : conf N) (h : Host) (cl : Nat)
    (t : instrumentable N) (w : World) (v : String)
    (hv : c.version_by_name "spdlog" = v) :
    spdlog.source_path c = path_append c.build ("spdlog-" ++ v) ∧
    (spdlog.do_fetch c h t w).2.2.log =
      w.log ++ [op.git (c.make_git_url "gabime" "spdlog") v
        (path_append c.build ("spdlog-" ++ v))] ∧
    (cl &&& c.reclone = c.reclone →
      (spdlog.do_clean c h cl t w).2.2.log =
        w.log ++ [op.git_delete_directory (path_append c.build ("spdlog-" ++ v))]) ∧
    (cl &&& c.reclone ≠ c.reclone →
      (spdlog.do_clean c h cl t w).2.2 = w ∧
      (spdlog.do_clean c h cl t w).1 = outcome.returned ()) := by
  subst hv
  refine ⟨rfl, ?_, ?_, ?_⟩
  · unfold spdlog.do_fetch
    rw [(instrument_world t c.times_fetch _ w).1]
    exact run_tool_log h _ w
  · intro hs
    have hs' : is_set cl c.reclone = true := by simp [is_set, hs]
    unfold spdlog.do_clean
    rw [(instrument_world t c.times_clean _ w).1]
    unfold spdlog.clean_body
    rw [if_pos hs']
    exact run_tool_log h _ w
  · intro hs
    have hs' : ¬ is_set cl c.reclone = true := by simp [is_set, hs]
    unfold spdlog.do_clean
    rw [(instrument_world t c.times_clean _ w).1, (instrument_world t c.times_clean _ w).2]
    unfold spdlog.clean_body
    rw [if_neg hs']
    exact ⟨rfl, rfl⟩

/-- C7 on a sample: with version `1.9.2`, build directory `build` and
`reclone = 1`, the source path is `build/spdlog-1.9.2`, fetch runs git with
branch `1.9.2` into it, a clean with flags `3` deletes it and a clean with
flags `2` does nothing. -/
theorem spdlog_fetch_and_clean_sample :
    sample_conf.version_by_name "spdlog" = "1.9.2" ∧
    spdlog.source_path sample_conf = "build/spdlog-1.9.2" ∧
    (spdlog.do_fetch sample_conf sample_host sample_task { time := 0, log := [] }).2.2.log =
      [op.git "https://github.com/gabime/spdlog" "1.9.2" "build/spdlog-1.9.2"] ∧
    (spdlog.do_clean sample_conf sample_host 3 sample_task { time := 0, log := [] }).2.2.log =
      [op.git_delete_directory "build/spdlog-1.9.2"] ∧
    (spdlog.do_clean sample_conf sample_host 2 sample_task { time := 0, log := [] }).2.2 =
      { time := 0, log := [] } := by
  have h3 := spdlog_fetch_and_clean sample_conf sample_host 3 sample_task
    { time := 0, log := [] } "1.9.2" rfl
  have h2 := spdlog_fetch_and_clean sample_conf sample_host 2 sample_task
    { time := 0, log := [] } "1.9.2" rfl
  exact ⟨rfl, h3.1.trans (by decide), h3.2.1.trans (by decide),
    (h3.2.2.1 (by decide)).trans (by decide), (h2.2.2.2 (by decide)).1⟩

theorem string_append_left_cancel (p a b : String) (h : p ++ a = p ++ b) : a = b := by
  have h' := congrArg String.data h
  rw [String.data_append, String.data_append] at h'
  exact String.ext (List.append_cancel_left h')

theorem path_append_injective (p a b : String) (h : path_append p a = path_append p b) :
    a = b :=
  string_append_left_cancel _ _ _ h

theorem take_seven_append (a x : String) (h : 7 ≤ a.data.length) :
    (a ++ x).data.take 7 = a.data.take 7 := by
  rw [String.data_append, List.take_append_of_le_length h]

theorem name_version_ne (a b x y : String) (ha : 7 ≤ a.data.length)
    (hb : 7 ≤ b.data.length) (hab : a.data.take 7 ≠ b.data.take 7) :
    a ++ "-v" ++ x ≠ b ++ "-v" ++ y := by
  intro h
  apply hab
  have h' := congrArg (fun s : String => s.data.take 7) h
  simp only [String.append_assoc] at h'
  rw [take_seven_append a _ ha, take_seven_append b _ hb] at h'
  exact h'

/-! ## Path normalisation -/

theorem foldl_normal_scan_plain (comp : List Char)
    (hc : ∀ ch ∈ comp, is_separator ch = false) (st : List (List Char)) (cur : List Char) :
    comp.foldl normal_scan (st, cur) = (st, cur ++ comp) := by
  induction comp generalizing cur with
  | nil => simp
  | cons a l ih =>
    rw [List.foldl_cons]
    have ha : is_separator a = false := hc a (List.mem_cons_self _ _)
    have : normal_scan (st, cur) a = (st, cur ++ [a]) := by
      simp [normal_scan, ha]
    rw [this, ih (fun ch hch => hc ch (List.mem_cons_of_mem _ hch))]
    simp

theorem path_prefix_scan (p : String) :
    (( path_prefix p).data.foldl normal_scan ([], [])).2 = [] := by
  unfold path_prefix
  by_cases h1 : p = ""
  · rw [if_pos h1]; rfl
  · rw [if_neg h1]
    by_cases h2 : p.back = '/'
    · rw [if_pos h2]
      -- the last character of `p` is a separator
      obtain ⟨l⟩ := p
      have hl : l ≠ [] := by
        intro hl; apply h1; rw [hl]
      have hlast : l.getLast hl = '/' := by
        have hb : (String.mk l).back = l.getLastD default := String.back_eq (String.mk l)
        rw [h2, List.getLastD_eq_getLast?, List.getLast?_eq_getLast l hl] at hb
        simpa using hb.symm
      have hsplit : l = l.dropLast ++ ['/'] := by
        rw [← hlast]; exact (List.dropLast_append_getLast hl).symm
      show (l.foldl normal_scan ([], [])).2 = []
      rw [hsplit, List.foldl_append]
      simp [normal_scan, is_separator]
    · rw [if_neg h2]
      rw [String.data_append, List.foldl_append]
      show (List.foldl normal_scan _ ['/']).2 = []
      simp [normal_scan, is_separator]

theorem lexically_normal_path_append (p : String) (comp : String)
    (hc : ∀ ch ∈ comp.data, is_separator ch = false)
    (h0 : comp.data ≠ []) (h1 : comp.data ≠ ['.']) (h2 : comp.data ≠ ['.', '.']) :
    lexically_normal (path_append p comp) =
      ((comp.data :: (( path_prefix p).data.foldl normal_scan ([], [])).1).reverse).map
        String.mk := by
  unfold lexically_normal path_append
  simp only [String.data_append, List.foldl_append]
  have hpre := path_prefix_scan p
  generalize ( path_prefix p).data.foldl normal_scan ([], []) = st at hpre ⊢
  obtain ⟨s, cur⟩ := st
  simp only at hpre
  subst hpre
  rw [foldl_normal_scan_plain comp.data hc]
  simp [normal_step, h0, h1, h2]

theorem string_mk_injective : Function.Injective String.mk := by
  intro a b h
  exact congrArg String.data h

theorem lexically_normal_path_append_ne (p a b : String)
    (ha : ∀ ch ∈ a.data, is_separator ch = false)
    (hb : ∀ ch ∈ b.data, is_separator ch = false)
    (ha0 : a.data ≠ []) (ha1 : a.data ≠ ['.']) (ha2 : a.data ≠ ['.', '.'])
    (hb0 : b.data ≠ []) (hb1 : b.data ≠ ['.']) (hb2 : b.data ≠ ['.', '.'])
    (hab : a ≠ b) :
    lexically_normal (path_append p a) ≠ lexically_normal (path_append p b) := by
  rw [lexically_normal_path_append p a ha ha0 ha1 ha2,
    lexically_normal_path_append p b hb hb0 hb1 hb2]
  intro h
  have h' := (List.map_injective_iff.mpr string_mk_injective) h
  rw [List.reverse_cons, List.reverse_cons] at h'
  have h'' := List.append_cancel_left h'
  simp only [List.cons.injEq, and_true] at h''
  exact hab (String.ext h'')

theorem component_plain (n v : String)
    (hn : ∀ ch ∈ n.data, is_separator ch = false)
    (hv : ∀ ch ∈ v.data, is_separator ch = false) :
    ∀ ch ∈ (n ++ "-v" ++ v).data, is_separator ch = false := by
  intro ch hch
  simp only [String.data_append, List.mem_append] at hch
  rcases hch with (hch | hch) | hch
  · exact hn ch hch
  · have : ∀ x ∈ "-v".data, is_separator x = false := by decide
    exact this ch hch
  · exact hv ch hch

theorem component_long (n v : String) (hn : 7 ≤ n.data.length) :
    (n ++ "-v" ++ v).data ≠ [] ∧ (n ++ "-v" ++ v).data ≠ ['.'] ∧
    (n ++ "-v" ++ v).data ≠ ['.', '.'] := by
  have hlen : 7 ≤ (n ++ "-v" ++ v).data.length := by
    simp only [String.data_append, List.length_append]
    omega
  refine ⟨?_, ?_, ?_⟩ <;> intro h <;> rw [h] at hlen <;> simp at hlen

theorem build_dir_ne (p n1 n2 v1 v2 : String)
    (hn1 : ∀ ch ∈ n1.data, is_separator ch = false)
    (hn2 : ∀ ch ∈ n2.data, is_separator ch = false)
    (hv1 : ∀ ch ∈ v1.data, is_separator ch = false)
    (hv2 : ∀ ch ∈ v2.data, is_separator ch = false)
    (h1 : 7 ≤ n1.data.length) (h2 : 7 ≤ n2.data.length)
    (hne : n1.data.take 7 ≠ n2.data.take 7) :
    lexically_normal (path_append p (n1 ++ "-v" ++ v1)) ≠
      lexically_normal (path_append p (n2 ++ "-v" ++ v2)) := by
  obtain ⟨a0, a1, a2⟩ := component_long n1 v1 h1
  obtain ⟨b0, b1, b2⟩ := component_long n2 v2 h2
  exact lexically_normal_path_append_ne p _ _ (component_plain n1 v1 hn1 hv1)
    (component_plain n2 v2 hn2 hv2) a0 a1 a2 b0 b1 b2 (name_version_ne _ _ _ _ h1 h2 hne)

theorem cache_file_ne (p a b : String)
    (ha : ∀ ch ∈ a.data, is_separator ch = false)
    (hb : ∀ ch ∈ b.data, is_separator ch = false)
    (ha3 : 3 ≤ a.data.length) (hb3 : 3 ≤ b.data.length) (hab : a ≠ b) :
    lexically_normal (path_append p a) ≠ lexically_normal (path_append p b) := by
  apply lexically_normal_path_append_ne p a b ha hb _ _ _ _ _ _ hab <;>
    intro h <;> first | (rw [h] at ha3; simp at ha3) | (rw [h] at hb3; simp at hb3)

theorem stylesheets_path_values_distinct {N : Nat} (c : conf N) :
    ((stylesheets.releases c).map (stylesheets.cache_file c)).Pairwise (· ≠ ·) ∧
    ((stylesheets.releases c).map (stylesheets.release_build_path c)).Pairwise (· ≠ ·) := by
  constructor
  · simp only [stylesheets.releases, stylesheets.cache_file, List.map_cons, List.map_nil,
      List.pairwise_cons, List.mem_cons, List.mem_singleton, List.not_mem_nil,
      forall_eq_or_imp, forall_eq]
    refine ⟨⟨?_, ?_, ?_, ?_⟩, ⟨?_, ?_, ?_⟩, ⟨?_, ?_⟩, ?_, List.Pairwise.nil⟩ <;>
      first
      | (intro h; exact absurd (path_append_injective _ _ _ h) (by decide))
      | (intro a ha; exact ha.elim)
  · simp only [stylesheets.releases, stylesheets.release_build_path, List.map_cons,
      List.map_nil, List.pairwise_cons, List.mem_cons, List.mem_singleton, List.not_mem_nil,
      forall_eq_or_imp, forall_eq]
    refine ⟨⟨?_, ?_, ?_, ?_⟩, ⟨?_, ?_, ?_⟩, ⟨?_, ?_⟩, ?_, List.Pairwise.nil⟩ <;>
      first
      | (intro h
         exact name_version_ne _ _ _ _ (by decide) (by decide) (by decide)
           (path_append_injective _ _ _ h))
      | (intro a ha; exact ha.elim)

/-- C10, as the code has it: whatever versions the configuration assigns to
the four stylesheet releases, their four cache files `<cache>/<name>.7z` are
pairwise distinct, as path values and as the files they name, and their four
extraction directories `release_build_path(r)` are pairwise distinct path
values; when no version contains a path separator, the four extraction
directories are also pairwise distinct as the directories they name, so no
release's download or extraction overwrites another's. -/
theorem stylesheets_paths_distinct {N : Nat} (c : conf N) :
    ((stylesheets.releases c).map (stylesheets.cache_file c)).Pairwise (· ≠ ·) ∧
    ((stylesheets.releases c).map (stylesheets.release_build_path c)).Pairwise (· ≠ ·) ∧
    ((stylesheets.releases c).map
      (fun r => lexically_normal (stylesheets.cache_file c r))).Pairwise (· ≠ ·) ∧
    ((∀ r ∈ stylesheets.releases c, ∀ ch ∈ r.version.data, is_separator ch = false) →
      ((stylesheets.releases c).map
        (fun r => lexically_normal (stylesheets.release_build_path c r))).Pairwise
          (· ≠ ·)) := by
  refine ⟨(stylesheets_path_values_distinct c).1, (stylesheets_path_values_distinct c).2,
    ?_, fun hv => ?_⟩
  · simp only [stylesheets.releases, stylesheets.cache_file, List.map_cons, List.map_nil,
      List.pairwise_cons, List.mem_cons, List.mem_singleton, List.not_mem_nil,
      forall_eq_or_imp, forall_eq]
    refine ⟨⟨?_, ?_, ?_, ?_⟩, ⟨?_, ?_, ?_⟩, ⟨?_, ?_⟩, ?_, List.Pairwise.nil⟩ <;>
      first
      | exact cache_file_ne _ _ _ (by decide) (by decide) (by decide) (by decide) (by decide)
      | (intro a ha; exact ha.elim)
  · have hv1 : ∀ ch ∈ (stylesheets.paper_lad_6788_version c).data,
        is_separator ch = false :=
      hv (release.mk "6788-00" "paper-light-and-dark"
        (stylesheets.paper_lad_6788_version c) (stylesheets.paper_lad_6788_version c))
        (by simp [stylesheets.releases])
    have hv2 : ∀ ch ∈ (stylesheets.paper_automata_6788_version c).data,
        is_separator ch = false :=
      hv (release.mk "6788-00" "paper-automata"
        (stylesheets.paper_automata_6788_version c) "Paper-Automata")
        (by simp [stylesheets.releases])
    have hv3 : ∀ ch ∈ (stylesheets.paper_mono_6788_version c).data,
        is_separator ch = false :=
      hv (release.mk "6788-00" "paper-mono" (stylesheets.paper_mono_6788_version c) "Paper-Mono")
        (by simp [stylesheets.releases])
    have hv4 : ∀ ch ∈ (stylesheets.dark_mode_1809_6788_version c).data,
        is_separator ch = false :=
      hv (release.mk "6788-00" "1809-dark-mode" (stylesheets.dark_mode_1809_6788_version c)
        (stylesheets.dark_mode_1809_6788_version c))
        (by simp [stylesheets.releases])
    simp only [stylesheets.releases, stylesheets.release_build_path, List.map_cons,
      List.map_nil, List.pairwise_cons, List.mem_cons, List.mem_singleton, List.not_mem_nil,
      forall_eq_or_imp, forall_eq]
    refine ⟨⟨?_, ?_, ?_, ?_⟩, ⟨?_, ?_, ?_⟩, ⟨?_, ?_⟩, ?_, List.Pairwise.nil⟩ <;>
      first
      | exact build_dir_ne _ _ _ _ _ (by decide) (by decide) hv1 hv2
          (by decide) (by decide) (by decide)
      | exact build_dir_ne _ _ _ _ _ (by decide) (by decide) hv1 hv3
          (by decide) (by decide) (by decide)
      | exact build_dir_ne _ _ _ _ _ (by decide) (by decide) hv1 hv4
          (by decide) (by decide) (by decide)
      | exact build_dir_ne _ _ _ _ _ (by decide) (by decide) hv2 hv3
          (by decide) (by decide) (by decide)
      | exact build_dir_ne _ _ _ _ _ (by decide) (by decide) hv2 hv4
          (by decide) (by decide) (by decide)
      | exact build_dir_ne _ _ _ _ _ (by decide) (by decide) hv3 hv4
          (by decide) (by decide) (by decide)
      | (intro a ha; exact ha.elim)

/-- C10 fails as stated: with the version `1/../paper-automata-v2` for
`paper-mono` and the version `2` for `paper-automata`, the two extraction
paths are different path values that name the same directory
`build/paper-automata-v2`, so one extraction writes over the other. -/
theorem stylesheets_versions_share_directory :
    (stylesheets.releases sample_conf_dotdot).map
        (stylesheets.release_build_path sample_conf_dotdot) =
      ["build/paper-light-and-dark-v2", "build/paper-automata-v2",
       "build/paper-mono-v1/../paper-automata-v2", "build/1809-dark-mode-v2"] ∧
    lexically_normal "build/paper-automata-v2" = ["build", "paper-automata-v2"] ∧
    lexically_normal "build/paper-mono-v1/../paper-automata-v2" =
      ["build", "paper-automata-v2"] ∧
    ¬ ((stylesheets.releases sample_conf_dotdot).map
        (fun r => lexically_normal
          (stylesheets.release_build_path sample_conf_dotdot r))).Pairwise (· ≠ ·) := by
  refine ⟨by decide, by decide, by decide, ?_⟩
  intro h
  simp only [stylesheets.releases, List.map_cons, List.map_nil, List.pairwise_cons,
    List.mem_cons, List.mem_singleton, forall_eq_or_imp, forall_eq] at h
  exact absurd h.2.1.1 (by decide)

/-- C10 on a sample: with every version `1.9.2` no version contains a
separator, and the four extraction directories are four different
directories of `build`. -/
theorem stylesheets_paths_distinct_sample :
    (∀ r ∈ stylesheets.releases sample_conf, ∀ ch ∈ r.version.data,
      is_separator ch = false) ∧
    (stylesheets.releases sample_conf).map
        (fun r => lexically_normal (stylesheets.release_build_path sample_conf r)) =
      [["build", "paper-light-and-dark-v1.9.2"], ["build", "paper-automata-v1.9.2"],
       ["build", "paper-mono-v1.9.2"], ["build", "1809-dark-mode-v1.9.2"]] ∧
    ((stylesheets.releases sample_conf).map
        (fun r => lexically_normal
          (stylesheets.release_build_path sample_conf r))).Pairwise (· ≠ ·) := by
  have hv : ∀ r ∈ stylesheets.releases sample_conf, ∀ ch ∈ r.version.data,
      is_separator ch = false := by decide
  exact ⟨hv, by decide, (stylesheets_paths_distinct sample_conf).2.2.2 hv⟩

/-! ## Line splitting -/

theorem char_at_eq (s : List Char) (p : Nat) (h : p < s.length) :
    char_at s p = s[p] := by
  simp [char_at, List.getD, h]

theorem skip_breaks_eq (s : List Char) (fuel p : Nat) (hp : p ≤ s.length)
    (hfuel : s.length - p < fuel) :
    skip_breaks s fuel p = some (p + ((s.drop p).takeWhile is_break).length) := by
  induction fuel generalizing p with
  | zero => omega
  | succ fuel ih =>
    unfold skip_breaks
    by_cases hlt : p < s.length
    · have hd : s.drop p = s[p] :: s.drop (p + 1) := List.drop_eq_getElem_cons hlt
      rw [char_at_eq s p hlt, hd]
      by_cases hb : is_break s[p] = true
      · rw [if_pos ⟨by omega, hb⟩, ih (p + 1) (by omega) (by omega)]
        rw [List.takeWhile_cons_of_pos hb, List.length_cons]
        congr 1
        omega
      · rw [if_neg (fun h => hb h.2), List.takeWhile_cons_of_neg hb]
        rfl
    · have hpe : p = s.length := by omega
      rw [if_neg (fun h => h.1 hpe)]
      subst hpe
      simp

theorem line_runs_nil : line_runs [] = [] := by
  simp [line_runs]

theorem line_runs_of_no_break (l : List Char) (h : ∀ c ∈ l, is_break c = false) :
    line_runs l = if l = [] then [] else [l] := by
  unfold line_runs
  rw [List.splitOnP_eq_single]
  · cases l <;> simp
  · intro c hc; simp [h c hc]

theorem line_runs_cons_break (b : Char) (l : List Char) (hb : is_break b = true) :
    line_runs (b :: l) = line_runs l := by
  unfold line_runs
  rw [List.splitOnP_cons, if_pos hb]
  simp

theorem line_runs_dropWhile (l : List Char) :
    line_runs (l.dropWhile is_break) = line_runs l := by
  induction l with
  | nil => rfl
  | cons b l ih =>
    by_cases hb : is_break b = true
    · rw [List.dropWhile_cons_of_pos hb, ih, line_runs_cons_break b l hb]
    · rw [List.dropWhile_cons_of_neg hb]

theorem line_runs_run_break (run rest : List Char) (b : Char)
    (hrun : ∀ c ∈ run, is_break c = false) (hb : is_break b = true) :
    line_runs (run ++ b :: rest) = (if run = [] then [] else [run]) ++ line_runs rest := by
  unfold line_runs
  rw [List.splitOnP_first is_break run (fun c hc => by simp [hrun c hc]) b hb rest]
  cases run <;> simp

theorem drop_length_takeWhile (l : List Char) :
    l.drop (l.takeWhile is_break).length = l.dropWhile is_break := by
  induction l with
  | nil => rfl
  | cons b l ih =>
    by_cases hb : is_break b = true
    · rw [List.takeWhile_cons_of_pos hb, List.dropWhile_cons_of_pos hb]
      simpa using ih
    · rw [List.takeWhile_cons_of_neg hb, List.dropWhile_cons_of_neg hb]
      rfl

theorem for_each_line_loop_eq (s : List Char) (fuel p start : Nat)
    (out : List (List Char)) (hsp : start ≤ p) (hp : p ≤ s.length)
    (hfuel : s.length - p < fuel)
    (hrun : ∀ c ∈ (s.drop start).take (p - start), is_break c = false) :
    for_each_line_loop s fuel p start out = Except.ok (out ++ line_runs (s.drop start)) := by
  induction fuel generalizing p start out with
  | zero => omega
  | succ fuel ih =>
    have hsplit : s.drop start = (s.drop start).take (p - start) ++ s.drop p := by
      have h1 := (List.take_append_drop (p - start) (s.drop start)).symm
      rw [List.drop_drop] at h1
      have h2 : start + (p - start) = p := by omega
      rw [h2] at h1
      exact h1
    have hlen : ((s.drop start).take (p - start)).length = p - start := by
      rw [List.length_take, List.length_drop]
      omega
    have hempty : (s.drop start).take (p - start) = [] ↔ p = start := by
      rw [← List.length_eq_zero, hlen]
      omega
    unfold for_each_line_loop
    rw [if_neg (by omega), if_neg (by omega)]
    by_cases hlt : p < s.length
    · have hd : s.drop p = s[p] :: s.drop (p + 1) := List.drop_eq_getElem_cons hlt
      rw [char_at_eq s p hlt]
      by_cases hb : is_break s[p] = true
      · rw [if_pos (Or.inr hb), if_neg (by omega), if_neg (by omega)]
        rw [skip_breaks_eq s (s.length + 1) p hp (by omega)]
        simp only []
        have hk : 1 ≤ ((s.drop p).takeWhile is_break).length := by
          rw [hd, List.takeWhile_cons_of_pos hb]
          simp
        have hk2 : p + ((s.drop p).takeWhile is_break).length ≤ s.length := by
          have := (List.takeWhile_prefix is_break (l := s.drop p)).length_le
          rw [List.length_drop] at this
          omega
        have hrest : s.drop (p + ((s.drop p).takeWhile is_break).length) =
            (s.drop p).dropWhile is_break := by
          rw [← drop_length_takeWhile, List.drop_drop]
        have hruns : line_runs (s.drop start) =
            (if (s.drop start).take (p - start) = [] then []
              else [(s.drop start).take (p - start)]) ++
            line_runs (s.drop (p + ((s.drop p).takeWhile is_break).length)) := by
          rw [hrest, line_runs_dropWhile, hd, line_runs_cons_break _ _ hb,
            ← line_runs_run_break _ _ _ hrun hb, ← hd]
          exact congrArg line_runs hsplit
        rw [if_neg (by omega)]
        by_cases hend : p + ((s.drop p).takeWhile is_break).length = s.length
        · rw [if_pos hend, hruns, hend, List.drop_length, line_runs_nil]
          by_cases hps : p = start
          · simp [hps]
          · simp [hps, hempty]
        · rw [if_neg hend, ih _ _ _ (le_refl _) hk2 (by omega) (by simp), hruns]
          by_cases hps : p = start
          · simp [hps]
          · simp [hps, hempty]
      · rw [if_neg (by
          intro h
          rcases h with h | h
          · omega
          · exact hb h)]
        apply ih (p + 1) start out (by omega) (by omega) (by omega)
        intro c hc
        have h3 : (s.drop start).take (p + 1 - start) =
            (s.drop start).take (p - start) ++ [s[p]] := by
          have h4 : p + 1 - start = (p - start) + 1 := by omega
          rw [h4]
          conv_lhs => rw [hsplit, hd]
          rw [List.take_append_eq_append_take, hlen]
          have h5 : List.take (p - start + 1) (List.take (p - start) (List.drop start s)) =
              List.take (p - start) (List.drop start s) := by
            apply List.take_of_length_le
            rw [hlen]; omega
          rw [h5]
          simp
          rw [hd]
          rfl
        rw [h3, List.mem_append, List.mem_singleton] at hc
        rcases hc with hc | hc
        · exact hrun c hc
        · rw [hc]; simpa using hb
    · have hpe : p = s.length := by omega
      rw [if_pos (Or.inl hpe), if_neg (by omega), if_neg (by omega)]
      rw [skip_breaks_eq s (s.length + 1) p hp (by omega)]
      have hdn : s.drop p = [] := by rw [hpe]; exact List.drop_length s
      simp only [hdn, List.takeWhile_nil, List.length_nil, Nat.add_zero]
      rw [if_neg (by omega), if_pos hpe]
      have hall : (s.drop start).take (p - start) = s.drop start := by
        rw [hsplit, hdn, List.append_nil]
        conv_rhs => rw [hsplit, hdn, List.append_nil]
      rw [hall] at hrun hempty
      rw [line_runs_of_no_break _ hrun, hall]
      by_cases hps : p = start
      · simp [hps, hempty.mpr hps]
      · have : ¬ s.drop start = [] := fun h => hps (hempty.mp h)
        simp [hps, this]

theorem for_each_line_loop_start (s : List Char) :
    for_each_line_loop s (s.length + 1) 0 0 [] = Except.ok (line_runs s) := by
  rw [for_each_line_loop_eq s (s.length + 1) 0 0 [] (le_refl _) (Nat.zero_le _) (by omega)
    (by simp)]
  simp

theorem for_each_line_eq (s : String) :
    for_each_line s = Except.ok ((line_runs s.data).map String.mk) := by
  unfold for_each_line
  by_cases h : s.data = []
  · rw [if_pos h, h, line_runs_nil]; rfl
  · rw [if_neg h]
    have : s.length = s.data.length := rfl
    rw [this, for_each_line_loop_start]
    rfl

theorem mem_splitOnP_no_sep (l : List Char) :
    ∀ x ∈ l.splitOnP is_break, ∀ c ∈ x, is_break c = false := by
  induction l with
  | nil => simp
  | cons a l ih =>
    rw [List.splitOnP_cons]
    by_cases ha : is_break a = true
    · rw [if_pos ha]
      intro x hx
      rcases List.mem_cons.mp hx with rfl | hx
      · simp
      · exact ih x hx
    · rw [if_neg ha]
      cases hsp : l.splitOnP is_break with
      | nil => simp [List.modifyHead]
      | cons y ys =>
        rw [hsp] at ih
        intro x hx
        simp only [List.modifyHead, List.mem_cons] at hx
        rcases hx with rfl | hx
        · intro c hc
          rcases List.mem_cons.mp hc with rfl | hc
          · simpa using ha
          · exact ih y (List.mem_cons_self _ _) c hc
        · exact ih x (List.mem_cons_of_mem _ hx)

theorem line_runs_mem (l x : List Char) (hx : x ∈ line_runs l) :
    x ≠ [] ∧ ∀ c ∈ x, c ≠ '\n' ∧ c ≠ '\r' := by
  unfold line_runs at hx
  rw [List.mem_filter] at hx
  refine ⟨by
    intro h
    rw [h] at hx
    simp at hx, fun c hc => ?_⟩
  have := mem_splitOnP_no_sep l x hx.1 c hc
  simp only [is_break, Bool.or_eq_false_iff, beq_eq_false_iff_ne, ne_eq] at this
  exact this

theorem line_runs_flatten (l : List Char) :
    (line_runs l).flatten = l.filter (fun c => !is_break c) := by
  induction l with
  | nil => rfl
  | cons a l ih =>
    by_cases ha : is_break a = true
    · rw [line_runs_cons_break a l ha, ih, List.filter_cons_of_neg (by simp [ha])]
    · rw [List.filter_cons_of_pos (by simp [ha]), ← ih]
      unfold line_runs
      rw [List.splitOnP_cons, if_neg ha]
      cases hsp : l.splitOnP is_break with
      | nil => exact absurd hsp (List.splitOnP_ne_nil _ _)
      | cons y ys =>
        simp [List.modifyHead, List.filter_cons]
        cases y <;> simp

/-- C9: for every string `s`, `for_each_line(s, f)` finishes with no assertion
failing, and the lines it calls `f` with are, in order, the maximal non-empty
runs of characters other than `\n` and `\r` of `s`: each is non-empty and
holds neither `\n` nor `\r`, their concatenation is `s` without its `\n` and
`\r`, and there is no call at all exactly when `s` is empty or made of line
breaks only. -/
theorem for_each_line_calls (s : String) :
    for_each_line s = Except.ok ((line_runs s.data).map String.mk) ∧
    line_runs s.data = (s.data.splitOnP is_break).filter (fun l => !l.isEmpty) ∧
    (∀ l ∈ line_runs s.data, l ≠ [] ∧ ∀ c ∈ l, c ≠ '\n' ∧ c ≠ '\r') ∧
    (line_runs s.data).flatten = s.data.filter (fun c => !is_break c) ∧
    (line_runs s.data = [] ↔ ∀ c ∈ s.data, c = '\n' ∨ c = '\r') := by
  refine ⟨for_each_line_eq s, rfl, fun l hl => line_runs_mem s.data l hl,
    line_runs_flatten s.data, ?_⟩
  constructor
  · intro h c hc
    have hf := line_runs_flatten s.data
    rw [h] at hf
    have hnot : c ∉ s.data.filter (fun c => !is_break c) := by
      rw [← hf]; simp
    rw [List.mem_filter] at hnot
    have hb : is_break c = true := by
      by_contra hb
      exact hnot ⟨hc, by simpa using hb⟩
    simpa [is_break] using hb
  · intro h
    have hf := line_runs_flatten s.data
    have hnil : s.data.filter (fun c => !is_break c) = [] := by
      rw [List.filter_eq_nil_iff]
      intro c hc
      have := h c hc
      rcases this with rfl | rfl <;> decide
    rw [hnil] at hf
    cases hruns : line_runs s.data with
    | nil => rfl
    | cons x xs =>
      have hx := (line_runs_mem s.data x (by rw [hruns]; exact List.mem_cons_self _ _)).1
      rw [hruns] at hf
      simp only [List.flatten_cons, List.append_eq_nil] at hf
      exact absurd hf.1 hx

/-- A text with Windows and Unix line ends, blank lines and no final line
end: `f` is called with the three non-empty lines, and with none for a text
of line breaks only or an empty text. -/
theorem for_each_line_sample :
    for_each_line "\r\n\r\nab\r\n\r\ncd\nef" = Except.ok ["ab", "cd", "ef"] ∧
    for_each_line "\n\r\n" = Except.ok [] ∧
    for_each_line "" = Except.ok [] := by
  decide

/-- C3 on a sample: three calls on phase 0, one returning, one throwing and one
cancelled, add three pairs after the one that was there, in call order. -/
theorem instrument_ledger_sequence_sample :
    (∀ c ∈ sample_calls, clock_monotone c.body) ∧
    ((instrument_all 0 sample_calls sample_ledger { time := 10, log := [] }).1.tasks_ 0).tps =
      [{ start := 1, end_ := 4 }, { start := 11, end_ := 16 }, { start := 17, end_ := 19 },
       { start := 20, end_ := 20 }] ∧
    (∀ tp ∈ call_times 0 sample_calls sample_ledger { time := 10, log := [] },
      tp.start ≤ tp.end_) := by
  have hm : ∀ c ∈ sample_calls, clock_monotone c.body := by
    intro c hc
    simp only [sample_calls, List.mem_cons, List.mem_singleton, List.not_mem_nil,
      or_false] at hc
    rcases hc with rfl | rfl | rfl <;> intro s w <;> simp [timestamp]
  refine ⟨hm, ?_, (instrument_ledger_sequence 0 sample_calls sample_ledger
    { time := 10, log := [] }).2.2.2.2 hm⟩
  rw [(instrument_ledger_sequence 0 sample_calls sample_ledger { time := 10, log := [] }).1]
  decide

/-- C6 on a sample: with every version `1.9.2` and every operation completing,
`do_fetch` performs the eight operations of the plan and `do_build_and_install`
the four copies. -/
theorem stylesheets_fetch_and_install_sample :
    (∀ o, sample_host.result o = run_result.completed) ∧
    (stylesheets.do_fetch sample_conf sample_host sample_task
        { time := 0, log := [] }).2.2.log =
      [op.download
          "https://github.com/6788-00/paper-light-and-dark/releases/download/v1.9.2/1.9.2.7z"
          "cache/paper-light-and-dark.7z",
       op.extract "cache/paper-light-and-dark.7z" "build/paper-light-and-dark-v1.9.2",
       op.download
          "https://github.com/6788-00/paper-automata/releases/download/v1.9.2/Paper-Automata.7z"
          "cache/paper-automata.7z",
       op.extract "cache/paper-automata.7z" "build/paper-automata-v1.9.2",
       op.download
          "https://github.com/6788-00/paper-mono/releases/download/v1.9.2/Paper-Mono.7z"
          "cache/paper-mono.7z",
       op.extract "cache/paper-mono.7z" "build/paper-mono-v1.9.2",
       op.download
          "https://github.com/6788-00/1809-dark-mode/releases/download/v1.9.2/1.9.2.7z"
          "cache/1809-dark-mode.7z",
       op.extract "cache/1809-dark-mode.7z" "build/1809-dark-mode-v1.9.2"] ∧
    (stylesheets.do_build_and_install sample_conf sample_host sample_task
        { time := 0, log := [] }).2.2.log =
      [op.copy_glob_to_dir_if_better "build/paper-light-and-dark-v1.9.2/*"
          "install/stylesheets" true true,
       op.copy_glob_to_dir_if_better "build/paper-automata-v1.9.2/*"
          "install/stylesheets" true true,
       op.copy_glob_to_dir_if_better "build/paper-mono-v1.9.2/*"
          "install/stylesheets" true true,
       op.copy_glob_to_dir_if_better "build/1809-dark-mode-v1.9.2/*"
          "install/stylesheets" true true] := by
  have h := (stylesheets_fetch_and_install sample_conf sample_host sample_task
    { time := 0, log := [] }).2.2.2.2.2 (fun _ => rfl)
  refine ⟨fun _ => rfl, ?_, ?_⟩
  · rw [h.1]; decide
  · rw [h.2]; decide

end mob
